import Mathlib

/-!
Shallow embedding of the Go package `hashmap` (file `hashmap.go`): a chained
hash table over a closed set of key domains, with per-bucket singly linked
chains whose head node caches a pointer to the chain's tail.

Modelling conventions:
* Go `interface{}` keys are the closed sum `Key` over the five supported
  domains; any other dynamic type would hit the `default: panic` branch of
  `getHashIndexAndEqualFunc`, so the model's key type covers exactly the
  domains the code supports.
* Values are an opaque type parameter `α`.
* A bucket's linked chain of `Pairs` nodes is a `List (Key × α)` in `next`
  order; the head node's `last` field (the tail anchor) is modelled by the
  field `last : Nat`, the offset in the chain of the node the anchor points
  to.  Only the head's `last` field is ever read by the code, so one offset
  per bucket is a faithful rendering.  In states where the anchor points at
  a node that is no longer in the chain the offset translation is partial;
  such states are shown unreachable (`Reachable_Inv`).
* Go panics (failed type assertions in the equality helpers, the capacity
  check in `Expand`) are rendered as `none` / `Except.error`.
* Machine integers: Go `int` keys are `Int` reduced mod 2^64 before masking,
  `uint32`/`uint64` masks are reduced mod 2^32 / 2^64 where Go converts.
  `math.Ceil (math.Log2 x)` in `New` is modelled as the exact base-2 ceiling
  logarithm `Nat.clog 2`; for every capacity at most 2^32 the float64
  computation is exact, so the model agrees with the code there.
-/

set_option autoImplicit false

namespace Hashmap

/-- Byte value (Go `uint8`), kept as a natural number. -/
abbrev Byte := Nat

/-- The five key domains accepted by `getHashIndexAndEqualFunc`. -/
inductive KeyDomain where
  | bytes
  | str
  | int
  | u32
  | u64
deriving DecidableEq, Repr

/-- Keys: the closed sum of the five supported key domains (`[]uint8`,
`string`, `int`, `uint64`, `uint32`). -/
inductive Key where
  | bytes (bs : List Byte)
  | str (s : String)
  | int (i : Int)
  | u32 (n : Nat)
  | u64 (n : Nat)
deriving DecidableEq, Repr

/-- Dynamic type (domain) of a key, as inspected by the Go type switches. -/
def Key.domain : Key → KeyDomain
  | .bytes _ => .bytes
  | .str _ => .str
  | .int _ => .int
  | .u32 _ => .u32
  | .u64 _ => .u64

/-- FNV 32-bit prime, from Go `hash/fnv`. -/
def fnvPrime32 : Nat := 16777619

/-- FNV 32-bit offset basis, from Go `hash/fnv`. -/
def fnvOffset32 : Nat := 2166136261

/-- One byte step of FNV-1: `s *= prime32; s ^= byte`, in 32-bit arithmetic. -/
def fnv1Step (h b : Nat) : Nat := ((h * fnvPrime32) % 2 ^ 32) ^^^ b

/-- FNV-1 32-bit hash of a byte sequence, as computed by Go's `fnv.New32`
(`Write` then `Sum32`). -/
def fnv1_32 (bs : List Byte) : Nat := bs.foldl fnv1Step fnvOffset32

/-- UTF-8 encoding of one character, matching Go's `[]byte(string)` view of
a code point. -/
def utf8Char (c : Char) : List Byte :=
  let v := c.toNat
  if v < 0x80 then [v]
  else if v < 0x800 then
    [0xC0 ||| (v >>> 6), 0x80 ||| (v &&& 0x3F)]
  else if v < 0x10000 then
    [0xE0 ||| (v >>> 12), 0x80 ||| ((v >>> 6) &&& 0x3F), 0x80 ||| (v &&& 0x3F)]
  else
    [0xF0 ||| (v >>> 18), 0x80 ||| ((v >>> 12) &&& 0x3F),
     0x80 ||| ((v >>> 6) &&& 0x3F), 0x80 ||| (v &&& 0x3F)]

/-- Byte representation of a Go string (UTF-8), used when hashing `string`
keys. -/
def strBytes (s : String) : List Byte := (s.data.map utf8Char).flatten

/-- One bucket: the `Pairs` chain in `next` order together with the offset
of the node the head's `last` (tail-anchor) field references.  An empty
bucket (nil head pointer) is `⟨[], 0⟩`. -/
structure Bucket (α : Type) where
  chain : List (Key × α)
  last : Nat
deriving DecidableEq

instance {α : Type} : Inhabited (Bucket α) := ⟨⟨[], 0⟩⟩

/-- The hash table `HM`: bucket array, capacity, the three masks and the
live-entry counter.  The `sync.RWMutex` has no sequential content and is
omitted; each operation below is one (or, for `Put`, two) critical
section(s). -/
structure HM (α : Type) where
  slices : List (Bucket α)
  capacity : Nat
  mask_uint32 : Nat
  mask_uint64 : Nat
  mask_int : Nat
  count : Nat
deriving DecidableEq

/-- Fuel-driven ceiling base-2 logarithm; the fuel only bounds the recursion
depth, and 64 units cover every value a Go `int` can hold (see `clog2_eq`). -/
def clog2go : Nat → Nat → Nat
  | 0, _ => 0
  | fuel + 1, n => if n ≤ 1 then 0 else clog2go fuel ((n + 1) / 2) + 1

/-- Ceiling base-2 logarithm `⌈log2 n⌉` for `n` in Go `int` range, written
with structural recursion so that concrete tables evaluate inside proofs. -/
def clog2 (n : Nat) : Nat := clog2go 64 n

/-- Constructor `New`: capacities below 16 are raised to 16, larger ones are
rounded to `1 <<< ⌈log2 capacity⌉` (the float ceiling-log is modelled
exactly, see the header note). -/
def New (α : Type) (capacity : Int) : HM α :=
  let cap : Nat := if capacity < 16 then 16 else 2 ^ clog2 capacity.toNat
  { slices := List.replicate cap ⟨[], 0⟩
    capacity := cap
    mask_uint32 := (cap - 1) % 2 ^ 32
    mask_uint64 := (cap - 1) % 2 ^ 64
    mask_int := cap - 1
    count := 0 }

/-- Bucket index for a key: the hash-and-mask dispatch of
`getHashIndexAndEqualFunc`.  Go `int` keys are masked on their 64-bit two's
complement bit pattern, which for the non-negative mask `capacity-1` is
`(i mod 2^64) &&& mask`. -/
def hashIndex {α : Type} (hm : HM α) (k : Key) : Nat :=
  match k with
  | .bytes bs => fnv1_32 bs &&& hm.mask_uint32
  | .str s => fnv1_32 (strBytes s) &&& hm.mask_uint32
  | .int i => (i % (2 ^ 64 : Int)).toNat &&& hm.mask_int
  | .u64 n => n &&& hm.mask_uint64
  | .u32 n => n &&& hm.mask_uint32

/-- Equality helper selected by the query key's domain (`bytesEqual`,
`stringEqual`, `intEqual`, `uint32Equal`, `uint64Equal`).  Each helper
type-asserts both arguments to the domain's type; `none` models the Go
panic of a failed assertion on a key of another domain. -/
def equalFn (d : KeyDomain) (stored query : Key) : Option Bool :=
  match d, stored, query with
  | .bytes, .bytes a, .bytes b => some (decide (a = b))
  | .str, .str a, .str b => some (decide (a = b))
  | .int, .int a, .int b => some (decide (a = b))
  | .u32, .u32 a, .u32 b => some (decide (a = b))
  | .u64, .u64 a, .u64 b => some (decide (a = b))
  | _, _, _ => none

/-- Result of walking a chain for a key (`getPairsUnsafe` / the scan loop of
`removePairs`): a panic, no match, or the first matching node together with
the part of the chain before it and after it. -/
inductive ScanOut (α : Type) where
  | panicked
  | notFound
  | found (pre : List (Key × α)) (v : α) (post : List (Key × α))
deriving DecidableEq

/-- Chain walk from the head: apply the query-selected equality to each
node's stored key until it returns true (`found`), the chain ends
(`notFound`), or an assertion fails (`panicked`). -/
def scanFor {α : Type} (k : Key) : List (Key × α) → ScanOut α
  | [] => .notFound
  | (k0, v0) :: rest =>
    match equalFn k.domain k0 k with
    | none => .panicked
    | some true => .found [] v0 rest
    | some false =>
      match scanFor k rest with
      | .found pre v post => .found ((k0, v0) :: pre) v post
      | .notFound => .notFound
      | .panicked => .panicked

/-- Bucket at index `i` (`hm.slices[hashIndex]`); out-of-range reads, which
the masked index never produces on a well-formed table, default to the
empty bucket. -/
def bucketAt {α : Type} (hm : HM α) (i : Nat) : Bucket α := hm.slices.getD i ⟨[], 0⟩

/-- Lookup `Get`: shared-lock scan of the key's bucket; `some none` is Go's
nil result for an absent key, outer `none` is a panic during the scan. -/
def Get {α : Type} (hm : HM α) (k : Key) : Option (Option α) :=
  match scanFor k (bucketAt hm (hashIndex hm k)).chain with
  | .panicked => none
  | .notFound => some none
  | .found _ v _ => .some (some v)

/-- Count query `GetCount`. -/
def GetCount {α : Type} (hm : HM α) : Nat := hm.count

/-- First critical section of `Put`: the presence check `getPairs`,
performed under the read lock. -/
def putCheck {α : Type} (hm : HM α) (k : Key) : ScanOut α :=
  scanFor k (bucketAt hm (hashIndex hm k)).chain

/-- Second critical section of `Put` on the absent path (lines 98-108 of
`hashmap.go`), under the write lock: re-read the bucket head; if the bucket
is non-empty, append through the head's tail anchor (`pairs.last.next =
newPairs; pairs.last = newPairs`) — writing `next` of the node at offset
`last` keeps that node's part of the chain and drops anything that
followed it; otherwise install the new node as head with its anchor on
itself.  The count is incremented either way. -/
def putInsertLocked {α : Type} (hm : HM α) (k : Key) (v : α) : HM α :=
  let i := hashIndex hm k
  let b := bucketAt hm i
  let b' : Bucket α :=
    match b.chain with
    | [] => ⟨[(k, v)], 0⟩
    | _ :: _ => ⟨b.chain.take (b.last + 1) ++ [(k, v)], b.last + 1⟩
  { hm with slices := hm.slices.set i b', count := hm.count + 1 }

/-- Insertion `Put`, sequential composition of its two critical sections:
presence check, then either in-place value overwrite of the found node or
tail append with count increment. -/
def Put {α : Type} (hm : HM α) (k : Key) (v : α) : Option (HM α) :=
  match putCheck hm k with
  | .panicked => none
  | .notFound => some (putInsertLocked hm k v)
  | .found pre _ post =>
    some { hm with
            slices := hm.slices.set (hashIndex hm k)
              ⟨pre ++ (k, v) :: post, (bucketAt hm (hashIndex hm k)).last⟩ }

/-- Bucket left after `removePairs` unlinks the first matching node, whose
chain context is `pre`/`post` and whose bucket's head anchor offset is `a`:

* tail removal with a predecessor re-anchors on the predecessor;
* head removal hands the old head's anchor to the new head (offset drops
  by one);
* removal of the only node empties the bucket;
* interior removal leaves the anchor pointer alone, so its offset drops by
  one exactly when the removed node sat before it. -/
def removedBucket {α : Type} (pre post : List (Key × α)) (a : Nat) : Bucket α :=
  match pre, post with
  | [], [] => ⟨[], 0⟩
  | p :: pr, [] => ⟨p :: pr, (p :: pr).length - 1⟩
  | [], q :: po => ⟨q :: po, a - 1⟩
  | p :: pr, q :: po =>
    ⟨(p :: pr) ++ q :: po, if (p :: pr).length < a then a - 1 else a⟩

/-- Removal helper `removePairs` (no locking, shared by `Remove`,
`RemoveAndUpdate` and `IterateAndUpdate`): scan the key's bucket, unlink
the first match and decrement the count; absence is a no-op.  The scrub of
the removed node (`setPairsEmpty`) detaches it and has no further effect on
the table state. -/
def removePairsOp {α : Type} (hm : HM α) (k : Key) : Option (HM α) :=
  let i := hashIndex hm k
  let b := bucketAt hm i
  match scanFor k b.chain with
  | .panicked => none
  | .notFound => some hm
  | .found pre _ post =>
    some { hm with
            slices := hm.slices.set i (removedBucket pre post b.last)
            count := hm.count - 1 }

/-- Public `Remove`: `removePairs` under the write lock. -/
def Remove {α : Type} (hm : HM α) (k : Key) : Option (HM α) := removePairsOp hm k

/-- Public `RemoveAndUpdate`: like `Remove` but the callback receives the
removed node's value before the scrub.  The effectful Go callback is
modelled with explicit state passing through `σ`; on absence it is not
invoked. -/
def RemoveAndUpdate {α σ : Type} (hm : HM α) (k : Key) (updateFunc : σ → α → σ)
    (s : σ) : Option (HM α × σ) :=
  let i := hashIndex hm k
  let b := bucketAt hm i
  match scanFor k b.chain with
  | .panicked => none
  | .notFound => some (hm, s)
  | .found pre v post =>
    some ({ hm with
             slices := hm.slices.set i (removedBucket pre post b.last)
             count := hm.count - 1 }, updateFunc s v)

/-- Inner loop of `IterateAndUpdate` over one bucket: the walk follows the
chain as captured at bucket-read time (`nextPairs` is saved before any
removal), invoking the callback on each node's key and value and calling
`removePairs` on the current key whenever it returns false. -/
def iterChain {α σ : Type} (f : σ → Key → α → σ × Bool) :
    List (Key × α) → HM α → σ → Option (HM α × σ)
  | [], hm, s => some (hm, s)
  | (k, v) :: rest, hm, s =>
    match f s k v with
    | (s', true) => iterChain f rest hm s'
    | (s', false) =>
      match removePairsOp hm k with
      | none => none
      | some hm' => iterChain f rest hm' s'

/-- Outer loop of `IterateAndUpdate` over the bucket indices; each bucket's
chain is read from the current table state when its turn comes. -/
def iterSlices {α σ : Type} (f : σ → Key → α → σ × Bool) :
    List Nat → HM α → σ → Option (HM α × σ)
  | [], hm, s => some (hm, s)
  | i :: rest, hm, s =>
    match iterChain f (bucketAt hm i).chain hm s with
    | none => none
    | some (hm', s') => iterSlices f rest hm' s'

/-- Bulk traversal `IterateAndUpdate`, under one write lock: visit every
bucket in index order, removing the entries the callback rejects.  The
callback's effects are modelled by threading `σ`. -/
def IterateAndUpdate {α σ : Type} (f : σ → Key → α → σ × Bool) (hm : HM α)
    (s : σ) : Option (HM α × σ) :=
  iterSlices f (List.range hm.slices.length) hm s

/-- Panic conditions of the table (section 7 of the specification): a key
type outside the five domains / a failed stored-key assertion, and
`Expand` called with a capacity not exceeding the live count. -/
inductive GoErr where
  | capacityTooSmall
  | badKeyAssert
deriving DecidableEq, Repr

/-- Chain migration step of `Expand`: re-insert every pair of one source
chain into the new table through the ordinary `Put` path. -/
def expandChain {α : Type} (newhm : HM α) : List (Key × α) → Option (HM α)
  | [] => some newhm
  | (k, v) :: rest =>
    match Put newhm k v with
    | none => none
    | some h => expandChain h rest

/-- Bucket loop of `Expand`: migrate each non-empty source chain, then
rewrite that chain head's tail anchor to the true tail (`firstPairs.last =
pairs` runs after the walk reaches the last node).  A panic inside `Put`
aborts the loop, leaving the source with only the anchor rewrites already
performed. -/
def expandLoop {α : Type} (newhm src : HM α) : List Nat → Except (HM α) (HM α × HM α)
  | [] => .ok (newhm, src)
  | i :: rest =>
    let b := bucketAt src i
    match b.chain with
    | [] => expandLoop newhm src rest
    | _ :: _ =>
      match expandChain newhm b.chain with
      | none => .error src
      | some nh =>
        expandLoop nh
          { src with slices := src.slices.set i ⟨b.chain, b.chain.length - 1⟩ } rest

/-- Growth operation `Expand`: panic (`capacityTooSmall`) when the request
does not exceed the live count, otherwise build a fresh table with `New`
and migrate every entry.  The result carries the new table and the source
as left after the walk; errors carry the source state at panic time. -/
def Expand {α : Type} (hm : HM α) (capacity : Int) :
    Except (GoErr × HM α) (HM α × HM α) :=
  if capacity ≤ (hm.count : Int) then .error (.capacityTooSmall, hm)
  else
    match expandLoop (New α capacity) hm (List.range hm.slices.length) with
    | .error src => .error (.badKeyAssert, src)
    | .ok p => .ok p

/-- First-match association lookup on a chain, the mapping a bucket's chain
denotes. -/
def lookupKV {α : Type} : List (Key × α) → Key → Option α
  | [], _ => none
  | (k0, v0) :: rest, k => if k0 = k then some v0 else lookupKV rest k

/-- Abstract mapping of the table: the value stored for `k` in the chain of
`k`'s home bucket. -/
def mapLookup {α : Type} (hm : HM α) (k : Key) : Option α :=
  lookupKV (bucketAt hm (hashIndex hm k)).chain k

/-- All live entries, in bucket order then chain order — the visit order of
the traversal operations. -/
def entriesList {α : Type} (hm : HM α) : List (Key × α) :=
  (hm.slices.map Bucket.chain).flatten

/-- Table with every bucket emptied and the count cleared, over the same
geometry; the result of an always-false `IterateAndUpdate`. -/
def emptyHM {α : Type} (hm : HM α) : HM α :=
  { hm with slices := List.replicate hm.slices.length ⟨[], 0⟩, count := 0 }

/-- One client operation for the sequential-history claims. -/
inductive Op (α : Type) where
  | put (k : Key) (v : α)
  | remove (k : Key)

/-- Interpretation of one client operation on the table. -/
def applyOp {α : Type} (hm : HM α) : Op α → Option (HM α)
  | .put k v => Put hm k v
  | .remove k => Remove hm k

/-- Run a sequence of client operations, stopping at the first panic. -/
def runOps {α : Type} (hm : HM α) : List (Op α) → Option (HM α)
  | [] => some hm
  | op :: rest =>
    match applyOp hm op with
    | none => none
    | some hm' => runOps hm' rest

/-- Reference model, value update: replace the value at the first (only)
occurrence of the key. -/
def specUpdate {α : Type} (k : Key) (v : α) : List (Key × α) → List (Key × α)
  | [] => []
  | (k0, v0) :: rest =>
    if k0 = k then (k0, v) :: rest else (k0, v0) :: specUpdate k v rest

/-- Reference model, removal: drop the first occurrence of the key. -/
def specErase {α : Type} (k : Key) : List (Key × α) → List (Key × α)
  | [] => []
  | (k0, v0) :: rest => if k0 = k then rest else (k0, v0) :: specErase k rest

/-- Reference model of one operation on an association list of the distinct
live keys with their most recent values. -/
def specApply {α : Type} (m : List (Key × α)) : Op α → List (Key × α)
  | .put k v => if (lookupKV m k).isSome then specUpdate k v m else m ++ [(k, v)]
  | .remove k => specErase k m

/-- Reference model of a whole operation sequence, from the empty mapping. -/
def specRun {α : Type} (ops : List (Op α)) : List (Key × α) :=
  ops.foldl specApply []

/-- Keys of a chain pairwise share one domain; public operations preserve
this because a cross-domain scan panics before it can insert. -/
def chainHomogeneous {α : Type} (c : List (Key × α)) : Prop :=
  ∀ p ∈ c, ∀ q ∈ c, (Prod.fst p).domain = (Prod.fst q).domain

/-- Per-bucket structural invariant: every entry lives in its home bucket,
keys are distinct and of one domain, an empty bucket carries anchor offset
0, and a non-empty bucket's anchor references the true tail. -/
def bucketWF {α : Type} (hm : HM α) (i : Nat) : Prop :=
  (∀ p ∈ (bucketAt hm i).chain, hashIndex hm p.1 = i) ∧
  ((bucketAt hm i).chain.map Prod.fst).Nodup ∧
  chainHomogeneous (bucketAt hm i).chain ∧
  ((bucketAt hm i).chain = [] → (bucketAt hm i).last = 0) ∧
  ((bucketAt hm i).chain ≠ [] →
    (bucketAt hm i).last + 1 = (bucketAt hm i).chain.length)

/-- Geometry well-formedness: the bucket array has `capacity` slots and the
masks keep every index in range. -/
def WF {α : Type} (hm : HM α) : Prop :=
  hm.slices.length = hm.capacity ∧ 1 ≤ hm.capacity ∧
  hm.mask_int ≤ hm.capacity - 1 ∧ hm.mask_uint32 ≤ hm.capacity - 1 ∧
  hm.mask_uint64 ≤ hm.capacity - 1

/-- Full table invariant: geometry, every bucket's structural invariant,
and the counter agreeing with the number of reachable entries. -/
def Inv {α : Type} (hm : HM α) : Prop :=
  WF hm ∧ (∀ i, bucketWF hm i) ∧
  hm.count = (hm.slices.map (fun b => b.chain.length)).sum

/-- Table states reachable from a constructor call by the public mutating
operations (with arbitrary caller-supplied callbacks, modelled by explicit
state passing). -/
inductive Reachable {α : Type} : HM α → Prop where
  | new (n : Int) : Reachable (New α n)
  | put {hm hm' : HM α} {k : Key} {v : α} :
      Reachable hm → Put hm k v = some hm' → Reachable hm'
  | remove {hm hm' : HM α} {k : Key} :
      Reachable hm → Remove hm k = some hm' → Reachable hm'
  | removeAndUpdate {σ : Type} {hm hm' : HM α} {k : Key} {f : σ → α → σ}
      {s s' : σ} :
      Reachable hm → RemoveAndUpdate hm k f s = some (hm', s') → Reachable hm'
  | iterateAndUpdate {σ : Type} {hm hm' : HM α} {f : σ → Key → α → σ × Bool}
      {s s' : σ} :
      Reachable hm → IterateAndUpdate f hm s = some (hm', s') → Reachable hm'
  | expandNew {hm nh src : HM α} {n : Int} :
      Reachable hm → Expand hm n = .ok (nh, src) → Reachable nh
  | expandSrc {hm nh src : HM α} {n : Int} :
      Reachable hm → Expand hm n = .ok (nh, src) → Reachable src

/-- Success test for an `Except`, used to state panic facts concretely. -/
def exceptIsOk {ε β : Type} : Except ε β → Bool
  | .ok _ => true
  | .error _ => false

instance {ε β : Type} [DecidableEq ε] [DecidableEq β] :
    DecidableEq (Except ε β) := fun x y =>
  match x, y with
  | .error a, .error b => decidable_of_iff (a = b) (by simp)
  | .ok a, .ok b => decidable_of_iff (a = b) (by simp)
  | .error _, .ok _ => isFalse (by simp)
  | .ok _, .error _ => isFalse (by simp)

/-! ### Concrete tables used to exercise the theorems on closed inputs -/

/-- Capacity-64 table holding the byte-sequence key `[1]` (bucket 30) and
the string key `"a"` (bucket 62); in a capacity-16 table both keys collide
in bucket 14. -/
def c4src : HM Nat :=
  ((Put (New Nat 64) (Key.bytes [1]) 0).bind fun h =>
    Put h (Key.str "a") 1).getD (New Nat 64)


/-- Operation sequence for exercising the sequential-history theorem. -/
def c1ops : List (Op Nat) :=
  [.put (.int 1) 10, .put (.str "a") 20, .remove (.int 1)]

/-- Table reached by running `c1ops` on a fresh capacity-16 table. -/
def c1hmW : HM Nat := (runOps (New Nat 16) c1ops).getD (New Nat 16)

/-- Table holding one `uint64` entry, for the round-trip theorem. -/
def c3hmW : HM Nat := (Put (New Nat 16) (Key.u64 7) 42).getD (New Nat 16)

/-- New table produced by growing `c3hmW` to capacity 17 (rounded to 32). -/
def c4nhW : HM Nat :=
  match Expand c3hmW 17 with
  | .ok p => p.1
  | .error p => p.2

/-- Source table as returned alongside `c4nhW`. -/
def c4srcW : HM Nat :=
  match Expand c3hmW 17 with
  | .ok p => p.2
  | .error p => p.2

/-- Table holding the string key `"a"`; the byte-sequence key `[97]` hashes
to the same bucket but is of another domain. -/
def c7hm : HM Nat := (Put (New Nat 16) (Key.str "a") 0).getD (New Nat 16)

/-- The previous table after removing its only key. -/
def c7hm2 : HM Nat := (Remove c7hm (Key.str "a")).getD (New Nat 16)

/-- A capacity-16 table whose bucket 14 chains a byte-sequence key before a
string key: both hash to bucket 14 (`fnv1_32 [97] &&& 15 = 14`), so any
string-domain operation on that bucket must type-assert the stored
byte-sequence key. -/
def c10hm : HM Nat :=
  { slices := (List.replicate 16 (⟨[], 0⟩ : Bucket Nat)).set 14
      ⟨[(Key.bytes [97], 0), (Key.str "a", 1)], 1⟩
    capacity := 16
    mask_uint32 := 15
    mask_uint64 := 15
    mask_int := 15
    count := 2 }

/-! ### The fuel-driven ceiling logarithm agrees with `Nat.clog 2` -/

theorem clog2go_eq_clog : ∀ (fuel n : Nat), n ≤ 2 ^ fuel →
    clog2go fuel n = Nat.clog 2 n
  | 0, n, h => by
    have hn : n ≤ 1 := by simpa using h
    simp [clog2go, Nat.clog_of_right_le_one hn]
  | fuel + 1, n, h => by
    by_cases h1 : n ≤ 1
    · simp [clog2go, h1, Nat.clog_of_right_le_one h1]
    · have h2 : 2 ≤ n := by omega
      have hpow : 2 ^ (fuel + 1) = 2 ^ fuel * 2 := pow_succ 2 fuel
      have hrec : (n + 1) / 2 ≤ 2 ^ fuel := by omega
      have hstep : clog2go (fuel + 1) n = clog2go fuel ((n + 1) / 2) + 1 := by
        simp [clog2go, h1]
      rw [hstep, Nat.clog_of_two_le one_lt_two h2,
        show (n + 2 - 1) / 2 = (n + 1) / 2 by omega,
        clog2go_eq_clog fuel ((n + 1) / 2) hrec]

theorem clog2_eq {n : Nat} (h : n ≤ 2 ^ 64) : clog2 n = Nat.clog 2 n :=
  clog2go_eq_clog 64 n h

/-! ### Equality dispatch -/

theorem equalFn_self (k : Key) : equalFn k.domain k k = some true := by
  cases k <;> simp [equalFn, Key.domain]

theorem equalFn_eq_none_iff {k0 k : Key} :
    equalFn k.domain k0 k = none ↔ k0.domain ≠ k.domain := by
  cases k <;> cases k0 <;> simp [equalFn, Key.domain]

theorem equalFn_eq_some_true_iff {k0 k : Key} :
    equalFn k.domain k0 k = some true ↔ k0 = k := by
  cases k <;> cases k0 <;> simp [equalFn, Key.domain]

theorem equalFn_eq_some_false_iff {k0 k : Key} :
    equalFn k.domain k0 k = some false ↔ k0.domain = k.domain ∧ k0 ≠ k := by
  cases k <;> cases k0 <;> simp [equalFn, Key.domain]

/-! ### Chain scans and chain lookups -/

variable {α : Type}

theorem scanFor_found {k : Key} {v : α} :
    ∀ {c pre post : List (Key × α)}, scanFor k c = .found pre v post →
      c = pre ++ (k, v) :: post ∧ ∀ p ∈ pre, p.1.domain = k.domain ∧ p.1 ≠ k
  | [], pre, post, h => by simp [scanFor] at h
  | (k0, v0) :: tl, pre, post, h => by
    rw [scanFor] at h
    cases heq : equalFn k.domain k0 k with
    | none => rw [heq] at h; simp at h
    | some b =>
      rw [heq] at h
      cases b with
      | true =>
        simp at h
        obtain ⟨hpre, hv, hpost⟩ := h
        have hk0 : k0 = k := equalFn_eq_some_true_iff.1 heq
        subst hpre hv hpost hk0
        simp
      | false =>
        simp at h
        cases hrec : scanFor k tl with
        | panicked => rw [hrec] at h; simp at h
        | notFound => rw [hrec] at h; simp at h
        | found pre' v' post' =>
          rw [hrec] at h
          simp at h
          obtain ⟨hpre, hv, hpost⟩ := h
          subst hv hpost
          obtain ⟨hc, hclean⟩ := scanFor_found hrec
          subst hpre
          refine ⟨by simp [hc], ?_⟩
          intro p hp
          rcases List.mem_cons.1 hp with hp0 | hp'
          · subst hp0
            have := equalFn_eq_some_false_iff.1 heq
            exact ⟨this.1, this.2⟩
          · exact hclean p hp'

theorem scanFor_notFound {k : Key} :
    ∀ {c : List (Key × α)}, scanFor k c = .notFound →
      ∀ p ∈ c, p.1.domain = k.domain ∧ p.1 ≠ k
  | [], _, p, hp => by simp at hp
  | (k0, v0) :: tl, h, p, hp => by
    rw [scanFor] at h
    cases heq : equalFn k.domain k0 k with
    | none => rw [heq] at h; simp at h
    | some b =>
      rw [heq] at h
      cases b with
      | true => simp at h
      | false =>
        have hd := equalFn_eq_some_false_iff.1 heq
        rcases List.mem_cons.1 hp with hp0 | hp'
        · subst hp0; exact hd
        · cases hrec : scanFor k tl with
          | panicked => rw [hrec] at h; simp at h
          | found pre' v' post' => rw [hrec] at h; simp at h
          | notFound => exact scanFor_notFound hrec p hp'

theorem scanFor_eq_notFound {k : Key} :
    ∀ {c : List (Key × α)}, (∀ p ∈ c, p.1.domain = k.domain ∧ p.1 ≠ k) →
      scanFor k c = .notFound
  | [], _ => rfl
  | (k0, v0) :: tl, h => by
    have h0 := h (k0, v0) (by simp)
    rw [scanFor, equalFn_eq_some_false_iff.2 h0,
      scanFor_eq_notFound (fun p hp => h p (List.mem_cons_of_mem _ hp))]

theorem scanFor_clean_append {k : Key} {v : α} :
    ∀ {c rest : List (Key × α)}, (∀ p ∈ c, p.1.domain = k.domain ∧ p.1 ≠ k) →
      scanFor k (c ++ (k, v) :: rest) = .found c v rest
  | [], rest, _ => by simp [scanFor, equalFn_self]
  | (k0, v0) :: tl, rest, h => by
    have h0 := h (k0, v0) (by simp)
    rw [List.cons_append, scanFor, equalFn_eq_some_false_iff.2 h0,
      scanFor_clean_append (fun p hp => h p (List.mem_cons_of_mem _ hp))]

theorem lookupKV_eq_none_iff {c : List (Key × α)} {k : Key} :
    lookupKV c k = none ↔ ∀ p ∈ c, p.1 ≠ k := by
  induction c with
  | nil => simp [lookupKV]
  | cons hd tl ih =>
    obtain ⟨k0, v0⟩ := hd
    by_cases h0 : k0 = k
    · subst h0; simp [lookupKV]
    · simp [lookupKV, h0, ih]

theorem lookupKV_append_of_none {c1 c2 : List (Key × α)} {k : Key}
    (h : lookupKV c1 k = none) : lookupKV (c1 ++ c2) k = lookupKV c2 k := by
  induction c1 with
  | nil => simp
  | cons hd tl ih =>
    obtain ⟨k0, v0⟩ := hd
    by_cases h0 : k0 = k
    · simp [lookupKV, h0] at h
    · rw [lookupKV] at h
      rw [if_neg h0] at h
      simpa [lookupKV, h0] using ih h

theorem lookupKV_append_of_some {c1 c2 : List (Key × α)} {k : Key} {v : α}
    (h : lookupKV c1 k = some v) : lookupKV (c1 ++ c2) k = some v := by
  induction c1 with
  | nil => simp [lookupKV] at h
  | cons hd tl ih =>
    obtain ⟨k0, v0⟩ := hd
    by_cases h0 : k0 = k
    · rw [lookupKV] at h
      rw [if_pos h0] at h
      simp [lookupKV, h0, h]
    · rw [lookupKV] at h
      rw [if_neg h0] at h
      simpa [lookupKV, h0] using ih h

theorem lookupKV_clean_append {c rest : List (Key × α)} {k : Key} {v : α}
    (h : ∀ p ∈ c, p.1 ≠ k) : lookupKV (c ++ (k, v) :: rest) k = some v := by
  rw [lookupKV_append_of_none (lookupKV_eq_none_iff.2 h), lookupKV, if_pos rfl]

theorem lookupKV_some_split {c : List (Key × α)} {k : Key} {v : α}
    (h : lookupKV c k = some v) :
    ∃ pre post, c = pre ++ (k, v) :: post ∧ ∀ p ∈ pre, p.1 ≠ k := by
  induction c with
  | nil => simp [lookupKV] at h
  | cons hd tl ih =>
    obtain ⟨k0, v0⟩ := hd
    by_cases h0 : k0 = k
    · rw [lookupKV] at h
      rw [if_pos h0] at h
      subst h0
      cases h
      exact ⟨[], tl, by simp, by simp⟩
    · rw [lookupKV] at h
      rw [if_neg h0] at h
      obtain ⟨pre, post, hc, hclean⟩ := ih h
      exact ⟨(k0, v0) :: pre, post, by simp [hc], by
        intro p hp
        rcases List.mem_cons.1 hp with hp0 | hp'
        · subst hp0; exact h0
        · exact hclean p hp'⟩

/-! ### List utilities for the bucket array -/

theorem getD_set_self {β : Type} {l : List β} {i : Nat} {b d : β}
    (h : i < l.length) : (l.set i b).getD i d = b := by
  simp [List.getD_eq_getElem?_getD, List.getElem?_set_self h]

theorem getD_set_ne {β : Type} {l : List β} {i j : Nat} {b d : β}
    (h : i ≠ j) : (l.set i b).getD j d = l.getD j d := by
  simp [List.getD_eq_getElem?_getD, List.getElem?_set_ne h]

theorem set_getD_self {β : Type} {l : List β} {i : Nat} {d : β}
    (h : i < l.length) : l.set i (l.getD i d) = l := by
  apply List.ext_getElem?
  intro j
  by_cases hj : i = j
  · subst hj
    rw [List.getElem?_set_self h, List.getD_eq_getElem?_getD,
      List.getElem?_eq_getElem h]
    simp
  · exact List.getElem?_set_ne hj

theorem sum_map_set {β : Type} {f : β → Nat} :
    ∀ {l : List β} {i : Nat} {b d : β}, i < l.length →
      ((l.set i b).map f).sum + f (l.getD i d) = (l.map f).sum + f b
  | [], i, b, d, h => by simp at h
  | hd :: tl, 0, b, d, _ => by simp [List.getD]; omega
  | hd :: tl, i + 1, b, d, h => by
    have := sum_map_set (f := f) (l := tl) (i := i) (b := b) (d := d)
      (by simpa using h)
    simp [List.getD] at this ⊢
    omega

theorem map_range_getD {β γ : Type} (g : β → γ) (d : β) :
    ∀ l : List β,
      (List.range l.length).map (fun i => g (l.getD i d)) = l.map g
  | [] => by simp
  | hd :: tl => by
    rw [List.length_cons, List.range_succ_eq_map]
    simp only [List.map_cons, List.map_map]
    rw [show ((fun i => g ((hd :: tl).getD i d)) ∘ Nat.succ)
        = (fun i => g (tl.getD i d)) from rfl]
    rw [map_range_getD g d tl]
    rfl

/-! ### Geometry and congruence facts -/

theorem hashIndex_update {hm : HM α} {s : List (Bucket α)} {c : Nat} {k : Key} :
    hashIndex { hm with slices := s, count := c } k = hashIndex hm k := by
  cases k <;> rfl

theorem hashIndex_lt {hm : HM α} (hWF : WF hm) (k : Key) :
    hashIndex hm k < hm.slices.length := by
  obtain ⟨hlen, hcap, hint, h32, h64⟩ := hWF
  have hle : hashIndex hm k ≤ hm.capacity - 1 := by
    cases k <;> simp only [hashIndex] <;>
      exact le_trans Nat.and_le_right (by assumption)
  omega

theorem putCheck_notFound_lookup {hm : HM α} {k : Key}
    (hscan : putCheck hm k = .notFound) : mapLookup hm k = none :=
  lookupKV_eq_none_iff.2 fun p hp => (scanFor_notFound hscan p hp).2

theorem putCheck_found_lookup {hm : HM α} {k : Key} {v0 : α}
    {pre post : List (Key × α)}
    (hscan : putCheck hm k = .found pre v0 post) : mapLookup hm k = some v0 := by
  obtain ⟨hc, hclean⟩ := scanFor_found hscan
  rw [mapLookup, hc]
  exact lookupKV_clean_append fun p hp => (hclean p hp).2

/-! ### Specification of `Put` -/

theorem put_absent_spec {hm : HM α} {k : Key} {v : α} (hInv : Inv hm)
    (hscan : putCheck hm k = .notFound) :
    Inv (putInsertLocked hm k v) ∧
    (putInsertLocked hm k v).count = hm.count + 1 ∧
    mapLookup (putInsertLocked hm k v) k = some v ∧
    ∀ k', k' ≠ k → mapLookup (putInsertLocked hm k v) k' = mapLookup hm k' := by
  obtain ⟨hWF, hbuck, hcount⟩ := hInv
  have hlt : hashIndex hm k < hm.slices.length := hashIndex_lt hWF k
  have hclean := scanFor_notFound hscan
  have hbAt := hbuck (hashIndex hm k)
  have hb' : putInsertLocked hm k v =
      { hm with
        slices := hm.slices.set (hashIndex hm k)
          ⟨(bucketAt hm (hashIndex hm k)).chain ++ [(k, v)],
            (bucketAt hm (hashIndex hm k)).chain.length⟩
        count := hm.count + 1 } := by
    cases hch : (bucketAt hm (hashIndex hm k)).chain with
    | nil => simp [putInsertLocked, hch]
    | cons q tl =>
      have hne : (bucketAt hm (hashIndex hm k)).chain ≠ [] := by rw [hch]; simp
      have hanchor := hbAt.2.2.2.2 hne
      rw [hch] at hanchor
      simp only [putInsertLocked, hch]
      rw [List.take_of_length_le (by omega)]
      rw [show (bucketAt hm (hashIndex hm k)).last + 1 = (q :: tl).length
        from hanchor]
  rw [hb']
  set i := hashIndex hm k with hidef
  set c := (bucketAt hm i).chain with hcdef
  set nb : Bucket α := ⟨c ++ [(k, v)], c.length⟩ with hnb
  have hgetself :
      bucketAt { hm with slices := hm.slices.set i nb, count := hm.count + 1 } i
        = nb := getD_set_self hlt
  have hgetne : ∀ j, j ≠ i →
      bucketAt { hm with slices := hm.slices.set i nb, count := hm.count + 1 } j
        = bucketAt hm j :=
    fun j hj => getD_set_ne (Ne.symm hj)
  refine ⟨⟨?_, ?_, ?_⟩, rfl, ?_, ?_⟩
  · obtain ⟨hlen, hcap, hint, h32, h64⟩ := hWF
    exact ⟨by simpa using hlen, hcap, hint, h32, h64⟩
  · intro j
    by_cases hj : j = i
    · subst hj
      rw [bucketWF, hgetself]
      obtain ⟨hhome, hnodup, hhomog, hemp, hanch⟩ := hbAt
      refine ⟨?_, ?_, ?_, ?_, ?_⟩
      · intro p hp
        rw [hashIndex_update]
        rcases List.mem_append.1 hp with hpc | hpk
        · exact hhome p hpc
        · simp only [List.mem_singleton] at hpk
          subst hpk
          exact hidef.symm
      · show ((c ++ [(k, v)]).map Prod.fst).Nodup
        rw [List.map_append, List.nodup_append]
        refine ⟨hnodup, by simp, ?_⟩
        intro a ha
        simp only [List.map_cons, List.map_nil, List.mem_singleton]
        intro hak
        subst hak
        rcases List.mem_map.1 ha with ⟨p, hp, hpa⟩
        exact (hclean p hp).2 hpa
      · intro p hp q hq
        have hdom : ∀ r ∈ nb.chain, (Prod.fst r).domain = k.domain := by
          intro r hr
          rcases List.mem_append.1 (show r ∈ c ++ [(k, v)] from hr) with hrc | hrk
          · exact (hclean r hrc).1
          · simp only [List.mem_singleton] at hrk
            subst hrk
            rfl
        rw [hdom p hp, hdom q hq]
      · intro habs
        simp only [hnb] at habs
        simp at habs
      · intro _
        show c.length + 1 = (c ++ [(k, v)]).length
        simp
    · rw [bucketWF, hgetne j hj]
      have hbj := hbuck j
      rw [bucketWF] at hbj
      refine ⟨?_, hbj.2.1, hbj.2.2.1, hbj.2.2.2.1, hbj.2.2.2.2⟩
      intro p hp
      rw [hashIndex_update]
      exact hbj.1 p hp
  · have hsum := sum_map_set (f := fun b : Bucket α => b.chain.length)
      (l := hm.slices) (i := i) (b := nb) (d := ⟨[], 0⟩) hlt
    dsimp only at hsum
    have h1 : (c ++ [(k, v)]).length = c.length + 1 := by simp
    have h2 : (hm.slices.getD i ⟨[], 0⟩).chain.length = c.length := rfl
    show hm.count + 1 = ((hm.slices.set i nb).map fun b => b.chain.length).sum
    omega
  · rw [mapLookup, hashIndex_update, ← hidef, hgetself]
    show lookupKV (c ++ [(k, v)]) k = some v
    exact lookupKV_clean_append fun p hp => (hclean p hp).2
  · intro k' hk'
    rw [mapLookup, hashIndex_update, mapLookup]
    by_cases hj : hashIndex hm k' = i
    · rw [hj, hgetself, ← hcdef]
      show lookupKV (c ++ [(k, v)]) k' = lookupKV c k'
      cases hlk : lookupKV c k' with
      | some w => rw [lookupKV_append_of_some hlk]
      | none =>
        rw [lookupKV_append_of_none hlk]
        simp only [lookupKV]
        rw [if_neg fun h => hk' h.symm]
    · rw [hgetne _ hj]

theorem put_found_spec {hm : HM α} {k : Key} {v v0 : α}
    {pre post : List (Key × α)} (hInv : Inv hm)
    (hscan : putCheck hm k = .found pre v0 post) :
    Inv { hm with
          slices := hm.slices.set (hashIndex hm k)
            ⟨pre ++ (k, v) :: post, (bucketAt hm (hashIndex hm k)).last⟩ } ∧
    mapLookup { hm with
          slices := hm.slices.set (hashIndex hm k)
            ⟨pre ++ (k, v) :: post, (bucketAt hm (hashIndex hm k)).last⟩ } k
      = some v ∧
    ∀ k', k' ≠ k →
      mapLookup { hm with
            slices := hm.slices.set (hashIndex hm k)
              ⟨pre ++ (k, v) :: post, (bucketAt hm (hashIndex hm k)).last⟩ } k'
        = mapLookup hm k' := by
  obtain ⟨hWF, hbuck, hcount⟩ := hInv
  have hlt : hashIndex hm k < hm.slices.length := hashIndex_lt hWF k
  obtain ⟨hc, hclean⟩ := scanFor_found hscan
  set i := hashIndex hm k with hidef
  set nb : Bucket α := ⟨pre ++ (k, v) :: post, (bucketAt hm i).last⟩ with hnb
  have hbAt := hbuck i
  have hkeys : (pre ++ (k, v) :: post).map Prod.fst
      = (bucketAt hm i).chain.map Prod.fst := by
    rw [hc]; simp
  have hgetself :
      bucketAt { hm with slices := hm.slices.set i nb } i = nb :=
    getD_set_self hlt
  have hgetne : ∀ j, j ≠ i →
      bucketAt { hm with slices := hm.slices.set i nb } j = bucketAt hm j :=
    fun j hj => getD_set_ne (Ne.symm hj)
  have hmemkeys : ∀ p ∈ pre ++ (k, v) :: post,
      ∃ q ∈ (bucketAt hm i).chain, Prod.fst q = p.1 := by
    intro p hp
    have hmem : p.1 ∈ (pre ++ (k, v) :: post).map Prod.fst :=
      List.mem_map_of_mem _ hp
    rw [hkeys] at hmem
    rcases List.mem_map.1 hmem with ⟨q, hq, hqp⟩
    exact ⟨q, hq, hqp⟩
  refine ⟨⟨?_, ?_, ?_⟩, ?_, ?_⟩
  · obtain ⟨hlen, hcap, hint, h32, h64⟩ := hWF
    exact ⟨by simpa using hlen, hcap, hint, h32, h64⟩
  · intro j
    by_cases hj : j = i
    · subst hj
      rw [bucketWF, hgetself]
      obtain ⟨hhome, hnodup, hhomog, hemp, hanch⟩ := hbAt
      refine ⟨?_, ?_, ?_, ?_, ?_⟩
      · intro p hp
        rcases hmemkeys p hp with ⟨q, hq, hqp⟩
        have hq' := hhome q hq
        rw [hashIndex_update]
        rw [hqp] at hq'
        exact hq'
      · show ((pre ++ (k, v) :: post).map Prod.fst).Nodup
        rw [hkeys]
        exact hnodup
      · intro p hp q hq
        rcases hmemkeys p hp with ⟨p', hp', hpp⟩
        rcases hmemkeys q hq with ⟨q', hq', hqq⟩
        show (Prod.fst p).domain = (Prod.fst q).domain
        rw [← hpp, ← hqq]
        exact hhomog p' hp' q' hq'
      · intro habs
        simp only [hnb] at habs
        simp at habs
      · intro _
        show (bucketAt hm i).last + 1 = (pre ++ (k, v) :: post).length
        have hne : (bucketAt hm i).chain ≠ [] := by rw [hc]; simp
        have hl := hanch hne
        rw [hc] at hl
        simpa using hl
    · rw [bucketWF, hgetne j hj]
      have hbj := hbuck j
      rw [bucketWF] at hbj
      refine ⟨?_, hbj.2.1, hbj.2.2.1, hbj.2.2.2.1, hbj.2.2.2.2⟩
      intro p hp
      rw [hashIndex_update]
      exact hbj.1 p hp
  · have hsum := sum_map_set (f := fun b : Bucket α => b.chain.length)
      (l := hm.slices) (i := i) (b := nb) (d := ⟨[], 0⟩) hlt
    dsimp only at hsum
    have h1 : (pre ++ (k, v) :: post).length = pre.length + post.length + 1 := by
      rw [List.length_append, List.length_cons]
      omega
    have h2 : (hm.slices.getD i ⟨[], 0⟩).chain.length
        = pre.length + post.length + 1 := by
      show (bucketAt hm i).chain.length = pre.length + post.length + 1
      rw [hc, List.length_append, List.length_cons]
      omega
    show hm.count = ((hm.slices.set i nb).map fun b => b.chain.length).sum
    omega
  · rw [mapLookup, hashIndex_update, ← hidef, hgetself]
    show lookupKV (pre ++ (k, v) :: post) k = some v
    exact lookupKV_clean_append fun p hp => (hclean p hp).2
  · intro k' hk'
    rw [mapLookup, hashIndex_update, mapLookup]
    by_cases hj : hashIndex hm k' = i
    · rw [hj, hgetself, hc]
      show lookupKV (pre ++ (k, v) :: post) k' = lookupKV (pre ++ (k, v0) :: post) k'
      cases hlk : lookupKV pre k' with
      | some w => rw [lookupKV_append_of_some hlk, lookupKV_append_of_some hlk]
      | none =>
        rw [lookupKV_append_of_none hlk, lookupKV_append_of_none hlk]
        simp only [lookupKV]
        rw [if_neg fun h => hk' h.symm, if_neg fun h => hk' h.symm]
    · rw [hgetne _ hj]
/-! ### Specification of removal -/

theorem removedBucket_eq {pre post : List (Key × α)} {k0 : Key} {v0 : α}
    {b : Bucket α} (hc : b.chain = pre ++ (k0, v0) :: post)
    (hanch : b.chain ≠ [] → b.last + 1 = b.chain.length) :
    removedBucket pre post b.last = ⟨pre ++ post, (pre ++ post).length - 1⟩ := by
  have hne : b.chain ≠ [] := by rw [hc]; simp
  have hl : b.last = pre.length + post.length := by
    have h := hanch hne
    rw [hc, List.length_append, List.length_cons] at h
    omega
  cases pre with
  | nil =>
    cases post with
    | nil => simp [removedBucket]
    | cons q po =>
      have hred : removedBucket ([] : List (Key × α)) (q :: po) b.last
          = ⟨q :: po, b.last - 1⟩ := rfl
      rw [hred, hl]
      simp
  | cons p pr =>
    cases post with
    | nil =>
      have hred : removedBucket (p :: pr) ([] : List (Key × α)) b.last
          = ⟨p :: pr, (p :: pr).length - 1⟩ := rfl
      rw [hred]
      simp
    | cons q po =>
      have hcond : (p :: pr).length < b.last := by
        simp only [List.length_cons] at hl ⊢
        omega
      have hred : removedBucket (p :: pr) (q :: po) b.last
          = ⟨(p :: pr) ++ q :: po,
              if (p :: pr).length < b.last then b.last - 1 else b.last⟩ := rfl
      rw [hred, if_pos hcond, hl]
      simp only [Bucket.mk.injEq, List.length_append, List.length_cons]

theorem remove_spec {hm hm' : HM α} {k : Key} (hInv : Inv hm)
    (hrm : removePairsOp hm k = some hm') :
    Inv hm' ∧ mapLookup hm' k = none ∧
    (∀ k', k' ≠ k → mapLookup hm' k' = mapLookup hm k') ∧
    ((mapLookup hm k).isSome → hm.count = hm'.count + 1) ∧
    (mapLookup hm k = none → hm' = hm) := by
  obtain ⟨hWF, hbuck, hcount⟩ := hInv
  have hlt : hashIndex hm k < hm.slices.length := hashIndex_lt hWF k
  rw [removePairsOp] at hrm
  cases hscan : scanFor k (bucketAt hm (hashIndex hm k)).chain with
  | panicked => rw [hscan] at hrm; simp at hrm
  | notFound =>
    rw [hscan] at hrm
    simp only [Option.some.injEq] at hrm
    subst hrm
    have habs : mapLookup hm k = none :=
      lookupKV_eq_none_iff.2 fun p hp => (scanFor_notFound hscan p hp).2
    refine ⟨⟨hWF, hbuck, hcount⟩, habs, fun _ _ => rfl, ?_, fun _ => rfl⟩
    intro hIsSome
    rw [habs] at hIsSome
    simp at hIsSome
  | found pre v0 post =>
    rw [hscan] at hrm
    simp only [Option.some.injEq] at hrm
    obtain ⟨hc, hclean⟩ := scanFor_found hscan
    have hbAt := hbuck (hashIndex hm k)
    have hrb := removedBucket_eq hc hbAt.2.2.2.2
    rw [hrb] at hrm
    subst hrm
    set i := hashIndex hm k with hidef
    set nb : Bucket α := ⟨pre ++ post, (pre ++ post).length - 1⟩ with hnb
    have hsome : mapLookup hm k = some v0 := by
      rw [mapLookup, ← hidef, hc]
      exact lookupKV_clean_append fun p hp => (hclean p hp).2
    have hgetself :
        bucketAt { hm with slices := hm.slices.set i nb, count := hm.count - 1 } i
          = nb := getD_set_self hlt
    have hgetne : ∀ j, j ≠ i →
        bucketAt { hm with slices := hm.slices.set i nb, count := hm.count - 1 } j
          = bucketAt hm j :=
      fun j hj => getD_set_ne (Ne.symm hj)
    have hmem_sub : ∀ p ∈ pre ++ post, p ∈ (bucketAt hm i).chain := by
      intro p hp
      rw [hc]
      rcases List.mem_append.1 hp with h1 | h1
      · exact List.mem_append.2 (Or.inl h1)
      · exact List.mem_append.2 (Or.inr (List.mem_cons_of_mem _ h1))
    have hpostclean : ∀ p ∈ post, p.1 ≠ k := by
      have hnodup := hbAt.2.1
      rw [hc] at hnodup
      simp only [List.map_append, List.map_cons, List.nodup_append] at hnodup
      intro p hp hpk
      have hkmem : k ∈ (k, v0).1 :: post.map Prod.fst := by simp
      have := hnodup.2.1
      rw [List.nodup_cons] at this
      exact this.1 (hpk ▸ List.mem_map_of_mem Prod.fst hp)
    have hsum := sum_map_set (f := fun b : Bucket α => b.chain.length)
      (l := hm.slices) (i := i) (b := nb) (d := ⟨[], 0⟩) hlt
    dsimp only at hsum
    have hlen1 : (pre ++ post).length = pre.length + post.length := by
      rw [List.length_append]
    have hlen2 : (hm.slices.getD i ⟨[], 0⟩).chain.length
        = pre.length + post.length + 1 := by
      show (bucketAt hm i).chain.length = pre.length + post.length + 1
      rw [hc, List.length_append, List.length_cons]
      omega
    refine ⟨⟨?_, ?_, ?_⟩, ?_, ?_, ?_, ?_⟩
    · obtain ⟨hlen, hcap, hint, h32, h64⟩ := hWF
      exact ⟨by simpa using hlen, hcap, hint, h32, h64⟩
    · intro j
      by_cases hj : j = i
      · subst hj
        rw [bucketWF, hgetself]
        obtain ⟨hhome, hnodup, hhomog, hemp, hanch⟩ := hbAt
        refine ⟨?_, ?_, ?_, ?_, ?_⟩
        · intro p hp
          rw [hashIndex_update]
          exact hhome p (hmem_sub p hp)
        · show ((pre ++ post).map Prod.fst).Nodup
          have hsub : (pre ++ post).Sublist (pre ++ (k, v0) :: post) :=
            List.Sublist.append_left (List.sublist_cons_self _ _) pre
          have : ((pre ++ post).map Prod.fst).Sublist
              ((pre ++ (k, v0) :: post).map Prod.fst) := hsub.map _
          refine this.nodup ?_
          rw [← hc]
          exact hnodup
        · intro p hp q hq
          exact hhomog p (hmem_sub p hp) q (hmem_sub q hq)
        · intro habs
          show (pre ++ post).length - 1 = 0
          have hz : (pre ++ post).length = 0 := by
            have hch : pre ++ post = [] := habs
            rw [hch]
            rfl
          omega
        · intro hne2
          show (pre ++ post).length - 1 + 1 = (pre ++ post).length
          have hpos : (pre ++ post).length ≠ 0 := by
            intro h0
            exact hne2 (show nb.chain = [] from List.length_eq_zero.1 h0)
          omega
      · rw [bucketWF, hgetne j hj]
        have hbj := hbuck j
        rw [bucketWF] at hbj
        refine ⟨?_, hbj.2.1, hbj.2.2.1, hbj.2.2.2.1, hbj.2.2.2.2⟩
        intro p hp
        rw [hashIndex_update]
        exact hbj.1 p hp
    · show hm.count - 1 = ((hm.slices.set i nb).map fun b => b.chain.length).sum
      omega
    · rw [mapLookup, hashIndex_update, ← hidef, hgetself]
      show lookupKV (pre ++ post) k = none
      refine lookupKV_eq_none_iff.2 ?_
      intro p hp
      rcases List.mem_append.1 hp with h1 | h1
      · exact (hclean p h1).2
      · exact hpostclean p h1
    · intro k' hk'
      rw [mapLookup, hashIndex_update, mapLookup]
      by_cases hj : hashIndex hm k' = i
      · rw [hj, hgetself, hc]
        show lookupKV (pre ++ post) k' = lookupKV (pre ++ (k, v0) :: post) k'
        cases hlk : lookupKV pre k' with
        | some w =>
          rw [lookupKV_append_of_some hlk, lookupKV_append_of_some hlk]
        | none =>
          rw [lookupKV_append_of_none hlk, lookupKV_append_of_none hlk]
          conv_rhs => rw [lookupKV]
          rw [if_neg fun h => hk' h.symm]
      · rw [hgetne _ hj]
    · intro _
      show hm.count = hm.count - 1 + 1
      omega
    · intro habs
      rw [hsome] at habs
      exact absurd habs (by simp)

theorem removeAndUpdate_state {σ : Type} {hm hm' : HM α} {k : Key}
    {f : σ → α → σ} {s s' : σ}
    (h : RemoveAndUpdate hm k f s = some (hm', s')) :
    removePairsOp hm k = some hm' := by
  rw [RemoveAndUpdate] at h
  rw [removePairsOp]
  cases hscan : scanFor k (bucketAt hm (hashIndex hm k)).chain with
  | panicked => rw [hscan] at h; simp at h
  | notFound =>
    rw [hscan] at h
    simp only [Option.some.injEq, Prod.mk.injEq] at h
    dsimp only
    rw [h.1]
  | found pre v0 post =>
    rw [hscan] at h
    simp only [Option.some.injEq, Prod.mk.injEq] at h
    dsimp only
    rw [h.1]

/-! ### Lookup on an invariant table -/

theorem Get_spec_some {hm : HM α} {k : Key} {v : α} (hInv : Inv hm)
    (h : mapLookup hm k = some v) : Get hm k = some (some v) := by
  obtain ⟨pre, post, hc, hclean⟩ := lookupKV_some_split h
  have hhomog := (hInv.2.1 (hashIndex hm k)).2.2.1
  have hkv : (k, v) ∈ (bucketAt hm (hashIndex hm k)).chain := by
    rw [hc]
    exact List.mem_append.2 (Or.inr (List.mem_cons_self _ _))
  have hdom : ∀ p ∈ pre, p.1.domain = k.domain ∧ p.1 ≠ k := by
    intro p hp
    have hpmem : p ∈ (bucketAt hm (hashIndex hm k)).chain := by
      rw [hc]
      exact List.mem_append.2 (Or.inl hp)
    exact ⟨hhomog p hpmem (k, v) hkv, hclean p hp⟩
  rw [Get, hc, scanFor_clean_append hdom]

/-- The constructor result satisfies the full invariant. -/
theorem Inv_New (n : Int) : Inv (New α n) := by
  have hcap1 : 1 ≤ (if n < 16 then 16 else 2 ^ clog2 n.toNat) := by
    split
    · omega
    · exact Nat.one_le_two_pow
  have hb : ∀ i, bucketAt (New α n) i = ⟨[], 0⟩ := by
    intro i
    show (List.replicate (if n < 16 then 16 else 2 ^ clog2 n.toNat)
      (⟨[], 0⟩ : Bucket α)).getD i ⟨[], 0⟩ = ⟨[], 0⟩
    rw [List.getD_eq_getElem?_getD, List.getElem?_replicate]
    by_cases hi : i < (if n < 16 then 16 else 2 ^ clog2 n.toNat)
    · rw [if_pos hi]
      rfl
    · rw [if_neg hi]
      rfl
  refine ⟨⟨?_, ?_, ?_, ?_, ?_⟩, ?_, ?_⟩
  · show (List.replicate (if n < 16 then 16 else 2 ^ clog2 n.toNat)
      (⟨[], 0⟩ : Bucket α)).length = (if n < 16 then 16 else 2 ^ clog2 n.toNat)
    simp
  · exact hcap1
  · exact le_refl _
  · exact Nat.mod_le _ _
  · exact Nat.mod_le _ _
  · intro i
    rw [bucketWF, hb i]
    exact ⟨fun p hp => absurd hp (by simp), by simp,
      fun p hp => absurd hp (by simp), fun _ => rfl, fun h => absurd rfl h⟩
  · show 0 = ((List.replicate (if n < 16 then 16 else 2 ^ clog2 n.toNat)
      (⟨[], 0⟩ : Bucket α)).map fun b => b.chain.length).sum
    rw [List.map_replicate]
    simp

theorem Put_spec {hm hm' : HM α} {k : Key} {v : α} (hInv : Inv hm)
    (hput : Put hm k v = some hm') :
    Inv hm' ∧ mapLookup hm' k = some v ∧
    (∀ k', k' ≠ k → mapLookup hm' k' = mapLookup hm k') ∧
    hm'.count = (if (mapLookup hm k).isSome then hm.count else hm.count + 1) := by
  rw [Put] at hput
  cases hscan : putCheck hm k with
  | panicked => rw [hscan] at hput; simp at hput
  | notFound =>
    rw [hscan] at hput
    simp only [Option.some.injEq] at hput
    subst hput
    obtain ⟨h1, h2, h3, h4⟩ := put_absent_spec (v := v) ⟨hInv.1, hInv.2.1, hInv.2.2⟩ hscan
    rw [putCheck_notFound_lookup hscan]
    exact ⟨h1, h3, h4, by simpa using h2⟩
  | found pre v0 post =>
    rw [hscan] at hput
    simp only [Option.some.injEq] at hput
    subst hput
    obtain ⟨h1, h2, h3⟩ := put_found_spec (v := v) ⟨hInv.1, hInv.2.1, hInv.2.2⟩ hscan
    rw [putCheck_found_lookup hscan]
    exact ⟨h1, h2, h3, by simp⟩

/-! ### The reference association-list model -/

theorem bucketAt_New (n : Int) (i : Nat) : bucketAt (New α n) i = ⟨[], 0⟩ := by
  show (List.replicate (if n < 16 then 16 else 2 ^ clog2 n.toNat)
    (⟨[], 0⟩ : Bucket α)).getD i ⟨[], 0⟩ = ⟨[], 0⟩
  rw [List.getD_eq_getElem?_getD, List.getElem?_replicate]
  by_cases hi : i < (if n < 16 then 16 else 2 ^ clog2 n.toNat)
  · rw [if_pos hi]
    rfl
  · rw [if_neg hi]
    rfl

theorem mapLookup_New (n : Int) (k : Key) : mapLookup (New α n) k = none := by
  rw [mapLookup, bucketAt_New]
  rfl

theorem lookupKV_append_singleton_ne {m : List (Key × α)} {k k' : Key} {v : α}
    (h : k' ≠ k) : lookupKV (m ++ [(k, v)]) k' = lookupKV m k' := by
  cases hlk : lookupKV m k' with
  | some w => exact lookupKV_append_of_some hlk
  | none =>
    rw [lookupKV_append_of_none hlk]
    simp only [lookupKV]
    rw [if_neg fun hh => h hh.symm]

theorem keys_specUpdate {m : List (Key × α)} {k : Key} {v : α} :
    (specUpdate k v m).map Prod.fst = m.map Prod.fst := by
  induction m with
  | nil => rfl
  | cons hd tl ih =>
    obtain ⟨k0, v0⟩ := hd
    rw [specUpdate]
    by_cases h0 : k0 = k
    · rw [if_pos h0]
      simp
    · rw [if_neg h0]
      simp [ih]

theorem length_specUpdate {m : List (Key × α)} {k : Key} {v : α} :
    (specUpdate k v m).length = m.length := by
  have := keys_specUpdate (m := m) (k := k) (v := v)
  have h1 := congrArg List.length this
  simpa using h1

theorem lookupKV_specUpdate_self {m : List (Key × α)} {k : Key} {v : α}
    (h : (lookupKV m k).isSome) : lookupKV (specUpdate k v m) k = some v := by
  induction m with
  | nil => simp [lookupKV] at h
  | cons hd tl ih =>
    obtain ⟨k0, v0⟩ := hd
    rw [specUpdate]
    by_cases h0 : k0 = k
    · rw [if_pos h0, lookupKV, if_pos h0]
    · rw [if_neg h0, lookupKV, if_neg h0]
      rw [lookupKV, if_neg h0] at h
      exact ih h

theorem lookupKV_specUpdate_ne {m : List (Key × α)} {k k' : Key} {v : α}
    (h : k' ≠ k) : lookupKV (specUpdate k v m) k' = lookupKV m k' := by
  induction m with
  | nil => rfl
  | cons hd tl ih =>
    obtain ⟨k0, v0⟩ := hd
    rw [specUpdate]
    by_cases h0 : k0 = k
    · rw [if_pos h0, lookupKV, lookupKV, if_neg fun hh => h (hh.symm.trans h0),
        if_neg fun hh => h (hh.symm.trans h0)]
    · rw [if_neg h0, lookupKV, lookupKV]
      by_cases h1 : k0 = k'
      · rw [if_pos h1, if_pos h1]
      · rw [if_neg h1, if_neg h1]
        exact ih

theorem specErase_of_none {m : List (Key × α)} {k : Key}
    (h : lookupKV m k = none) : specErase k m = m := by
  induction m with
  | nil => rfl
  | cons hd tl ih =>
    obtain ⟨k0, v0⟩ := hd
    rw [lookupKV] at h
    rw [specErase]
    by_cases h0 : k0 = k
    · rw [if_pos h0] at h
      simp at h
    · rw [if_neg h0] at h
      rw [if_neg h0, ih h]

theorem keys_specErase_sublist {m : List (Key × α)} {k : Key} :
    ((specErase k m).map Prod.fst).Sublist (m.map Prod.fst) := by
  induction m with
  | nil => simp [specErase]
  | cons hd tl ih =>
    obtain ⟨k0, v0⟩ := hd
    rw [specErase]
    by_cases h0 : k0 = k
    · rw [if_pos h0]
      simp only [List.map_cons]
      exact (List.sublist_cons_self _ _)
    · rw [if_neg h0]
      simp only [List.map_cons]
      exact ih.cons₂ _

theorem length_specErase_some {m : List (Key × α)} {k : Key}
    (h : (lookupKV m k).isSome) : m.length = (specErase k m).length + 1 := by
  induction m with
  | nil => simp [lookupKV] at h
  | cons hd tl ih =>
    obtain ⟨k0, v0⟩ := hd
    rw [specErase]
    by_cases h0 : k0 = k
    · rw [if_pos h0]
      simp
    · rw [if_neg h0]
      rw [lookupKV, if_neg h0] at h
      simp only [List.length_cons]
      rw [ih h]

theorem lookupKV_specErase_self {m : List (Key × α)} {k : Key}
    (hnodup : (m.map Prod.fst).Nodup) : lookupKV (specErase k m) k = none := by
  induction m with
  | nil => rfl
  | cons hd tl ih =>
    obtain ⟨k0, v0⟩ := hd
    rw [List.map_cons, List.nodup_cons] at hnodup
    rw [specErase]
    by_cases h0 : k0 = k
    · rw [if_pos h0]
      subst h0
      refine lookupKV_eq_none_iff.2 ?_
      intro p hp hpk
      have hmem : p.1 ∈ tl.map Prod.fst := List.mem_map_of_mem Prod.fst hp
      rw [hpk] at hmem
      exact hnodup.1 hmem
    · rw [if_neg h0, lookupKV, if_neg h0]
      exact ih hnodup.2

theorem lookupKV_specErase_ne {m : List (Key × α)} {k k' : Key}
    (h : k' ≠ k) : lookupKV (specErase k m) k' = lookupKV m k' := by
  induction m with
  | nil => rfl
  | cons hd tl ih =>
    obtain ⟨k0, v0⟩ := hd
    rw [specErase]
    by_cases h0 : k0 = k
    · rw [if_pos h0, lookupKV, if_neg fun hh => h (hh.symm.trans h0)]
    · rw [if_neg h0, lookupKV, lookupKV]
      by_cases h1 : k0 = k'
      · rw [if_pos h1, if_pos h1]
      · rw [if_neg h1, if_neg h1]
        exact ih

/-- Simulation relation for the sequential-history claim: the table is
invariant-preserving, its counter equals the model's size, the model's keys
are distinct, and both sides denote the same mapping. -/
def SimRel (hm : HM α) (m : List (Key × α)) : Prop :=
  Inv hm ∧ hm.count = m.length ∧ (m.map Prod.fst).Nodup ∧
  ∀ k, mapLookup hm k = lookupKV m k

theorem simRel_applyOp {hm hm' : HM α} {m : List (Key × α)} {op : Op α}
    (hsim : SimRel hm m) (happ : applyOp hm op = some hm') :
    SimRel hm' (specApply m op) := by
  obtain ⟨hInv, hcnt, hnodup, hmap⟩ := hsim
  cases op with
  | put k v =>
    have hput : Put hm k v = some hm' := happ
    obtain ⟨hInv', hlk, hlkne, hcnt'⟩ := Put_spec hInv hput
    rw [specApply]
    by_cases hpres : (lookupKV m k).isSome
    · rw [if_pos hpres]
      refine ⟨hInv', ?_, ?_, ?_⟩
      · rw [hcnt', hmap k, if_pos hpres, hcnt, length_specUpdate]
      · rw [keys_specUpdate]
        exact hnodup
      · intro k'
        by_cases hk' : k' = k
        · subst hk'
          rw [hlk, lookupKV_specUpdate_self hpres]
        · rw [hlkne k' hk', hmap k', lookupKV_specUpdate_ne hk']
    · rw [if_neg hpres]
      have hnone : lookupKV m k = none := by
        cases hx : lookupKV m k with
        | none => rfl
        | some w => rw [hx] at hpres; simp at hpres
      refine ⟨hInv', ?_, ?_, ?_⟩
      · rw [hcnt', hmap k, hnone]
        simp only [Option.isSome_none, Bool.false_eq_true, if_false]
        rw [hcnt]
        simp
      · rw [List.map_append, List.nodup_append]
        refine ⟨hnodup, by simp, ?_⟩
        intro a ha
        simp only [List.map_cons, List.map_nil, List.mem_singleton]
        intro hak
        subst hak
        rcases List.mem_map.1 ha with ⟨p, hp, hpa⟩
        exact (lookupKV_eq_none_iff.1 hnone p hp) hpa
      · intro k'
        by_cases hk' : k' = k
        · subst hk'
          rw [hlk, lookupKV_clean_append (lookupKV_eq_none_iff.1 hnone)]
        · rw [hlkne k' hk', hmap k', lookupKV_append_singleton_ne hk']
  | remove k =>
    have hrm : removePairsOp hm k = some hm' := happ
    obtain ⟨hInv', hlk, hlkne, hcnt1, hsame⟩ := remove_spec hInv hrm
    rw [specApply]
    by_cases hpres : (lookupKV m k).isSome
    · have hpres' : (mapLookup hm k).isSome := by rw [hmap k]; exact hpres
      refine ⟨hInv', ?_, ?_, ?_⟩
      · have h1 := hcnt1 hpres'
        have h2 := length_specErase_some hpres
        omega
      · exact keys_specErase_sublist.nodup hnodup
      · intro k'
        by_cases hk' : k' = k
        · subst hk'
          rw [hlk, lookupKV_specErase_self hnodup]
        · rw [hlkne k' hk', hmap k', lookupKV_specErase_ne hk']
    · have hnone : lookupKV m k = none := by
        cases hx : lookupKV m k with
        | none => rfl
        | some w => rw [hx] at hpres; simp at hpres
      have hm'eq : hm' = hm := hsame (by rw [hmap k]; exact hnone)
      subst hm'eq
      rw [specErase_of_none hnone]
      exact ⟨hInv', hcnt, hnodup, hmap⟩

theorem simRel_runOps {hm hmf : HM α} {m : List (Key × α)} :
    ∀ {ops : List (Op α)}, SimRel hm m → runOps hm ops = some hmf →
      SimRel hmf (ops.foldl specApply m)
  | [], hsim, hrun => by
    rw [runOps] at hrun
    simp only [Option.some.injEq] at hrun
    subst hrun
    exact hsim
  | op :: rest, hsim, hrun => by
    rw [runOps] at hrun
    cases happ : applyOp hm op with
    | none => rw [happ] at hrun; simp at hrun
    | some hm1 =>
      rw [happ] at hrun
      dsimp only at hrun
      rw [List.foldl_cons]
      exact simRel_runOps (simRel_applyOp hsim happ) hrun

theorem simRel_New (n : Int) : SimRel (New α n) ([] : List (Key × α)) :=
  ⟨Inv_New n, rfl, by simp, fun k => mapLookup_New n k⟩

theorem runOps_spec {n : Int} {ops : List (Op α)} {hmf : HM α}
    (hrun : runOps (New α n) ops = some hmf) : SimRel hmf (specRun ops) :=
  simRel_runOps (simRel_New n) hrun

/-! ### Invariant preservation along every public operation -/

theorem iterChain_inv {σ : Type} {f : σ → Key → α → σ × Bool} :
    ∀ {c : List (Key × α)} {hm hm' : HM α} {s s' : σ}, Inv hm →
      iterChain f c hm s = some (hm', s') → Inv hm'
  | [], hm, hm', s, s', hInv, h => by
    rw [iterChain] at h
    simp only [Option.some.injEq, Prod.mk.injEq] at h
    rw [← h.1]
    exact hInv
  | (k, v) :: rest, hm, hm', s, s', hInv, h => by
    rw [iterChain] at h
    cases hf : f s k v with
    | mk s1 b =>
      rw [hf] at h
      cases b with
      | true => exact iterChain_inv hInv h
      | false =>
        dsimp only at h
        cases hrm : removePairsOp hm k with
        | none => rw [hrm] at h; simp at h
        | some hm1 =>
          rw [hrm] at h
          exact iterChain_inv (remove_spec hInv hrm).1 h

theorem iterSlices_inv {σ : Type} {f : σ → Key → α → σ × Bool} :
    ∀ {idxs : List Nat} {hm hm' : HM α} {s s' : σ}, Inv hm →
      iterSlices f idxs hm s = some (hm', s') → Inv hm'
  | [], hm, hm', s, s', hInv, h => by
    rw [iterSlices] at h
    simp only [Option.some.injEq, Prod.mk.injEq] at h
    rw [← h.1]
    exact hInv
  | i :: rest, hm, hm', s, s', hInv, h => by
    rw [iterSlices] at h
    cases hit : iterChain f (bucketAt hm i).chain hm s with
    | none => rw [hit] at h; simp at h
    | some p =>
      rw [hit] at h
      obtain ⟨hm1, s1⟩ := p
      exact iterSlices_inv (iterChain_inv hInv hit) h

theorem iterate_inv {σ : Type} {f : σ → Key → α → σ × Bool}
    {hm hm' : HM α} {s s' : σ} (hInv : Inv hm)
    (h : IterateAndUpdate f hm s = some (hm', s')) : Inv hm' :=
  iterSlices_inv hInv h

theorem expandChain_inv :
    ∀ {c : List (Key × α)} {nh nh' : HM α}, Inv nh →
      expandChain nh c = some nh' → Inv nh'
  | [], nh, nh', hInv, h => by
    rw [expandChain] at h
    simp only [Option.some.injEq] at h
    rw [← h]
    exact hInv
  | (k, v) :: rest, nh, nh', hInv, h => by
    rw [expandChain] at h
    cases hput : Put nh k v with
    | none => rw [hput] at h; simp at h
    | some nh1 =>
      rw [hput] at h
      exact expandChain_inv (Put_spec hInv hput).1 h

theorem expandSrcStep_inv {src : HM α} {i : Nat} (hInv : Inv src) :
    Inv { src with
          slices := src.slices.set i
            ⟨(bucketAt src i).chain, (bucketAt src i).chain.length - 1⟩ } := by
  by_cases hlt : i < src.slices.length
  · obtain ⟨hWF, hbuck, hcount⟩ := hInv
    set nb : Bucket α :=
      ⟨(bucketAt src i).chain, (bucketAt src i).chain.length - 1⟩ with hnb
    have hgetself :
        bucketAt { src with slices := src.slices.set i nb } i = nb :=
      getD_set_self hlt
    have hgetne : ∀ j, j ≠ i →
        bucketAt { src with slices := src.slices.set i nb } j = bucketAt src j :=
      fun j hj => getD_set_ne (Ne.symm hj)
    have hbAt := hbuck i
    refine ⟨⟨?_, ?_, ?_, ?_, ?_⟩, ?_, ?_⟩
    · show (src.slices.set i nb).length = src.capacity
      rw [List.length_set]
      exact hWF.1
    · exact hWF.2.1
    · exact hWF.2.2.1
    · exact hWF.2.2.2.1
    · exact hWF.2.2.2.2
    · intro j
      by_cases hj : j = i
      · rw [bucketWF, hj, hgetself]
        obtain ⟨hhome, hnodup, hhomog, hemp, hanch⟩ := hbAt
        refine ⟨?_, hnodup, hhomog, ?_, ?_⟩
        · intro p hp
          rw [hashIndex_update]
          exact hhome p hp
        · intro habs
          show (bucketAt src i).chain.length - 1 = 0
          rw [show (bucketAt src i).chain = [] from habs]
          rfl
        · intro hne
          show (bucketAt src i).chain.length - 1 + 1
            = (bucketAt src i).chain.length
          have hpos : (bucketAt src i).chain.length ≠ 0 := by
            intro h0
            exact hne (show nb.chain = [] from List.length_eq_zero.1 h0)
          omega
      · rw [bucketWF, hgetne j hj]
        have hbj := hbuck j
        rw [bucketWF] at hbj
        refine ⟨?_, hbj.2.1, hbj.2.2.1, hbj.2.2.2.1, hbj.2.2.2.2⟩
        intro p hp
        rw [hashIndex_update]
        exact hbj.1 p hp
    · have hsum := sum_map_set (f := fun b : Bucket α => b.chain.length)
        (l := src.slices) (i := i) (b := nb) (d := ⟨[], 0⟩) hlt
      dsimp only at hsum
      have h2 : (src.slices.getD i ⟨[], 0⟩).chain.length
          = (bucketAt src i).chain.length := rfl
      show src.count = ((src.slices.set i nb).map fun b => b.chain.length).sum
      omega
  · rw [List.set_eq_of_length_le (by omega)]
    exact hInv

theorem expandLoop_inv :
    ∀ {idxs : List Nat} {newhm src nh src' : HM α}, Inv newhm → Inv src →
      expandLoop newhm src idxs = .ok (nh, src') → Inv nh ∧ Inv src'
  | [], newhm, src, nh, src', hInvN, hInvS, h => by
    rw [expandLoop] at h
    simp only [Except.ok.injEq, Prod.mk.injEq] at h
    rw [← h.1, ← h.2]
    exact ⟨hInvN, hInvS⟩
  | i :: rest, newhm, src, nh, src', hInvN, hInvS, h => by
    rw [expandLoop] at h
    cases hch : (bucketAt src i).chain with
    | nil =>
      rw [hch] at h
      exact expandLoop_inv hInvN hInvS h
    | cons q tl =>
      rw [hch] at h
      dsimp only at h
      cases hec : expandChain newhm (q :: tl) with
      | none => rw [hec] at h; simp at h
      | some nh1 =>
        rw [hec] at h
        have hInvN1 : Inv nh1 := by
          rw [← hch] at hec
          exact expandChain_inv hInvN hec
        have hInvS1 : Inv { src with
            slices := src.slices.set i ⟨q :: tl, (q :: tl).length - 1⟩ } := by
          have := expandSrcStep_inv (i := i) hInvS
          rw [hch] at this
          exact this
        exact expandLoop_inv hInvN1 hInvS1 h

theorem expand_inv {hm nh src' : HM α} {n : Int} (hInv : Inv hm)
    (h : Expand hm n = .ok (nh, src')) : Inv nh ∧ Inv src' := by
  rw [Expand] at h
  by_cases hle : n ≤ (hm.count : Int)
  · rw [if_pos hle] at h
    simp at h
  · rw [if_neg hle] at h
    cases hloop : expandLoop (New α n) hm (List.range hm.slices.length) with
    | error e => rw [hloop] at h; simp at h
    | ok p =>
      rw [hloop] at h
      simp only [Except.ok.injEq] at h
      rw [h] at hloop
      exact expandLoop_inv (Inv_New n) hInv hloop

/-- Every table state reachable through the public interface satisfies the
full structural invariant. -/
theorem Reachable_Inv {hm : HM α} (h : Reachable hm) : Inv hm := by
  induction h with
  | new n => exact Inv_New n
  | put hr heq ih => exact (Put_spec ih heq).1
  | remove hr heq ih => exact (remove_spec ih heq).1
  | removeAndUpdate hr heq ih =>
    exact (remove_spec ih (removeAndUpdate_state heq)).1
  | iterateAndUpdate hr heq ih => exact iterate_inv ih heq
  | expandNew hr heq ih => exact (expand_inv ih heq).1
  | expandSrc hr heq ih => exact (expand_inv ih heq).2

/-! ### Claim theorems -/

/-- C1: for every sequential sequence of `Put`/`Remove` operations run from a
fresh table, if the run completes (no panic), `GetCount` equals the number of
distinct keys that have been `Put` and not subsequently removed (the size of
the duplicate-free reference association list), and `Get` on each such key
returns exactly the most recent `Put` value. -/
theorem c1_sequential_histories (n : Int) (ops : List (Op α)) (hmf : HM α)
    (hrun : runOps (New α n) ops = some hmf) :
    GetCount hmf = (specRun ops).length ∧
    ((specRun ops).map Prod.fst).Nodup ∧
    ∀ k v, lookupKV (specRun ops) k = some v → Get hmf k = some (some v) := by
  obtain ⟨hInv, hcnt, hnodup, hmap⟩ := runOps_spec hrun
  refine ⟨hcnt, hnodup, ?_⟩
  intro k v hv
  refine Get_spec_some hInv ?_
  rw [hmap k]
  exact hv

theorem c1_witness : Get c1hmW (Key.str "a") = some (some 20) := by
  have hrun : runOps (New Nat 16) c1ops = some c1hmW := by decide
  exact (c1_sequential_histories 16 c1ops c1hmW hrun).2.2 (Key.str "a") 20
    (by decide)

/-- C2: the code performs `Put`'s presence check (`getPairs`, under the read
lock) and its insert-on-absence (under the write lock) as two separate
critical sections, and the locked insert section appends unconditionally
without re-checking.  Interleaving the two sections of two concurrent `Put`
calls for the same absent key — both checks before either insert — therefore
yields two chain entries for that key (and count 2), which a single atomic
check-and-insert section would prevent (the second check would no longer
report the key absent). -/
theorem c2_put_check_insert_race :
    putCheck (New Nat 16) (Key.int 3) = ScanOut.notFound ∧
    Put (New Nat 16) (Key.int 3) 10
      = some (putInsertLocked (New Nat 16) (Key.int 3) 10) ∧
    putCheck (putInsertLocked (New Nat 16) (Key.int 3) 10) (Key.int 3)
      ≠ ScanOut.notFound ∧
    (bucketAt
        (putInsertLocked (putInsertLocked (New Nat 16) (Key.int 3) 10)
          (Key.int 3) 20)
        (hashIndex (New Nat 16) (Key.int 3))).chain
      = [(Key.int 3, 10), (Key.int 3, 20)] ∧
    (putInsertLocked (putInsertLocked (New Nat 16) (Key.int 3) 10)
      (Key.int 3) 20).count = 2 := by
  decide

/-- C3: on any table satisfying the structural invariant (every reachable
table does), a completed `Put(k, v)` followed immediately by `Get(k)` returns
`v`; the key `k` ranges over all five supported key domains. -/
theorem c3_put_get_roundtrip {hm hm' : HM α} {k : Key} {v : α} (hInv : Inv hm)
    (hput : Put hm k v = some hm') : Get hm' k = some (some v) := by
  obtain ⟨hInv', hlk, _, _⟩ := Put_spec hInv hput
  exact Get_spec_some hInv' hlk

theorem c3_witness : Get c3hmW (Key.u64 7) = some (some 42) := by
  have hput : Put (New Nat 16) (Key.u64 7) 42 = some c3hmW := by decide
  exact c3_put_get_roundtrip (Inv_New 16) hput

/-- C5: whenever the requested capacity does not exceed the live count,
`Expand` fails synchronously with the capacity panic, and the source table
accompanying the error is the unmodified input — the check precedes any
mutation. -/
theorem c5_expand_capacity_too_small {hm : HM α} {n : Int}
    (h : n ≤ (hm.count : Int)) :
    Expand hm n = .error (.capacityTooSmall, hm) := by
  rw [Expand, if_pos h]

theorem c5_witness :
    Expand (New Nat 16) 0 = .error (.capacityTooSmall, New Nat 16) :=
  c5_expand_capacity_too_small (by decide)

/-- C7 counterexample: removing the absent byte-sequence key `[97]` from a
table holding only the string key `"a"` (same bucket, different domain)
panics in `bytesEqual` instead of being a silent no-op. -/
theorem c7_counterexample :
    mapLookup c7hm (Key.bytes [97]) = none ∧
    Remove c7hm (Key.bytes [97]) = none := by
  decide

/-- C7 amended: `Remove` (and `RemoveAndUpdate`) of an absent key is a silent
no-op whenever the bucket scan completes without a cross-domain assertion
panic; in particular a second `Remove(k)` after a completed first one
succeeds and changes nothing. -/
theorem c7_remove_absent_noop {hm : HM α} {k : Key} :
    (∀ hm', mapLookup hm k = none → Remove hm k = some hm' → hm' = hm) ∧
    (Inv hm → ∀ hm', Remove hm k = some hm' → Remove hm' k = some hm') ∧
    (∀ {σ : Type} (f : σ → α → σ) (s : σ) (p : HM α × σ),
      mapLookup hm k = none → RemoveAndUpdate hm k f s = some p →
        p = (hm, s)) := by
  refine ⟨?_, ?_, ?_⟩
  · intro hm' habs hrm
    rw [Remove, removePairsOp] at hrm
    cases hscan : scanFor k (bucketAt hm (hashIndex hm k)).chain with
    | panicked => rw [hscan] at hrm; simp at hrm
    | notFound =>
      rw [hscan] at hrm
      simp only [Option.some.injEq] at hrm
      exact hrm.symm
    | found pre v0 post =>
      obtain ⟨hc, hclean⟩ := scanFor_found hscan
      have hsm : mapLookup hm k = some v0 := by
        rw [mapLookup, hc]
        exact lookupKV_clean_append fun q hq => (hclean q hq).2
      rw [habs] at hsm
      exact absurd hsm (by simp)
  · intro hInv hm' hrm
    obtain ⟨hWF, hbuck, hcount⟩ := hInv
    have hlt : hashIndex hm k < hm.slices.length := hashIndex_lt hWF k
    rw [Remove, removePairsOp] at hrm
    cases hscan : scanFor k (bucketAt hm (hashIndex hm k)).chain with
    | panicked => rw [hscan] at hrm; simp at hrm
    | notFound =>
      rw [hscan] at hrm
      simp only [Option.some.injEq] at hrm
      subst hrm
      rw [Remove, removePairsOp, hscan]
    | found pre v0 post =>
      obtain ⟨hc, hclean⟩ := scanFor_found hscan
      have hbAt := hbuck (hashIndex hm k)
      have hrb := removedBucket_eq hc hbAt.2.2.2.2
      rw [hscan] at hrm
      simp only [Option.some.injEq] at hrm
      rw [hrb] at hrm
      have hkv_mem : (k, v0) ∈ (bucketAt hm (hashIndex hm k)).chain := by
        rw [hc]
        exact List.mem_append.2 (Or.inr (List.mem_cons_self _ _))
      have hdom : ∀ p ∈ pre ++ post, p.1.domain = k.domain := by
        intro p hp
        refine hbAt.2.2.1 p ?_ (k, v0) hkv_mem
        rw [hc]
        rcases List.mem_append.1 hp with h1 | h1
        · exact List.mem_append.2 (Or.inl h1)
        · exact List.mem_append.2 (Or.inr (List.mem_cons_of_mem _ h1))
      have hpostne : ∀ p ∈ post, p.1 ≠ k := by
        have hnodup := hbAt.2.1
        rw [hc] at hnodup
        simp only [List.map_append, List.map_cons, List.nodup_append,
          List.nodup_cons] at hnodup
        intro p hp hpk
        have hmem : p.1 ∈ post.map Prod.fst := List.mem_map_of_mem Prod.fst hp
        rw [hpk] at hmem
        exact hnodup.2.1.1 hmem
      have hne : ∀ p ∈ pre ++ post, p.1 ≠ k := by
        intro p hp
        rcases List.mem_append.1 hp with h1 | h1
        · exact (hclean p h1).2
        · exact hpostne p h1
      have hidx : hashIndex hm' k = hashIndex hm k := by
        rw [← hrm]
        exact hashIndex_update
      have hbAt' : bucketAt hm' (hashIndex hm' k)
          = ⟨pre ++ post, (pre ++ post).length - 1⟩ := by
        rw [hidx, ← hrm]
        exact getD_set_self hlt
      have hscan2 : scanFor k (bucketAt hm' (hashIndex hm' k)).chain
          = .notFound := by
        rw [hbAt']
        exact scanFor_eq_notFound fun p hp => ⟨hdom p hp, hne p hp⟩
      rw [Remove, removePairsOp, hscan2]
  · intro σ f s p habs hrm
    rw [RemoveAndUpdate] at hrm
    cases hscan : scanFor k (bucketAt hm (hashIndex hm k)).chain with
    | panicked => rw [hscan] at hrm; simp at hrm
    | notFound =>
      rw [hscan] at hrm
      simp only [Option.some.injEq] at hrm
      exact hrm.symm
    | found pre v0 post =>
      obtain ⟨hc, hclean⟩ := scanFor_found hscan
      have hsm : mapLookup hm k = some v0 := by
        rw [mapLookup, hc]
        exact lookupKV_clean_append fun q hq => (hclean q hq).2
      rw [habs] at hsm
      exact absurd hsm (by simp)

theorem c7_witness : Remove c7hm2 (Key.str "a") = some c7hm2 := by
  have h1 : Remove c7hm (Key.str "a") = some c7hm2 := by decide
  have hput : Put (New Nat 16) (Key.str "a") 0 = some c7hm := by decide
  exact (c7_remove_absent_noop).2.1 (Put_spec (Inv_New 16) hput).1 c7hm2 h1

/-- C9: in every table state reachable by sequences of public operations
(construction, insertions, removals, traversal with deletion, growth —
including the growth operation's effect on its source), every non-empty
bucket's head tail-anchor references the true final node of that bucket's
chain: the anchor offset is the chain length minus one.  Appends and
removals re-establish the property, since reachability is closed under
them. -/
theorem c9_tail_anchor_reachable {hm : HM α} (h : Reachable hm) :
    ∀ i, (bucketAt hm i).chain ≠ [] →
      (bucketAt hm i).last + 1 = (bucketAt hm i).chain.length :=
  fun i => ((Reachable_Inv h).2.1 i).2.2.2.2

theorem c9_witness : (bucketAt c3hmW 7).last + 1 = (bucketAt c3hmW 7).chain.length := by
  have hput : Put (New Nat 16) (Key.u64 7) 42 = some c3hmW := by decide
  exact c9_tail_anchor_reachable
    (Reachable.put (Reachable.new 16) hput) 7 (by decide)

/-- C10: a table can hold keys of two different supported domains whose
bucket indices collide (here the byte-sequence key `[97]` and the string
key `"a"`, both in bucket 14); any lookup, insertion or removal walking
that bucket applies the query key's domain equality — which type-asserts
each stored key — to every scanned node, and on these inputs the assertion
fails: `Get`, `Put` and `Remove` with the string key all panic even though
that key is stored in the table, so the operations are not total on
supported key domains. -/
theorem c10_cross_domain_panic :
    (Key.bytes [97]).domain ≠ (Key.str "a").domain ∧
    hashIndex c10hm (Key.bytes [97]) = hashIndex c10hm (Key.str "a") ∧
    mapLookup c10hm (Key.str "a") = some 1 ∧
    Get c10hm (Key.str "a") = none ∧
    Put c10hm (Key.str "a") 7 = none ∧
    Remove c10hm (Key.str "a") = none := by
  decide

/-- C8 counterexample: for the requested capacity `2^33`, `New` rounds the
capacity to `2^33` but stores the 32-bit mask as `uint32(capacity-1)`,
which truncates to `2^32 - 1`, so not all masks equal capacity minus 1. -/
theorem c8_counterexample :
    (New Nat (2 ^ 33)).capacity = 2 ^ 33 ∧
    (New Nat (2 ^ 33)).mask_uint32 = 2 ^ 32 - 1 ∧
    (New Nat (2 ^ 33)).mask_uint32 ≠ (New Nat (2 ^ 33)).capacity - 1 := by
  decide

/-- C8 amended: for every requested capacity `n` with `n ≤ 2^32` (so the
32-bit mask does not truncate), `New n` produces as capacity the least
power of two that is at least 16 and at least `n`, and all three masks
equal capacity minus one; in particular `New 5` yields capacity 16 and
`New 20` yields capacity 32. -/
theorem c8_new_capacity (n : Int) (hn : n ≤ 2 ^ 32) :
    (∃ j, (New α n).capacity = 2 ^ j) ∧
    16 ≤ (New α n).capacity ∧
    n ≤ ((New α n).capacity : Int) ∧
    (∀ m : Nat, (∃ j, m = 2 ^ j) → 16 ≤ m → n ≤ (m : Int) →
      (New α n).capacity ≤ m) ∧
    (New α n).mask_int = (New α n).capacity - 1 ∧
    (New α n).mask_uint32 = (New α n).capacity - 1 ∧
    (New α n).mask_uint64 = (New α n).capacity - 1 ∧
    (New Nat 5).capacity = 16 ∧ (New Nat 20).capacity = 32 := by
  have hmain : (New α n).capacity ≤ 2 ^ 32 ∧ 16 ≤ (New α n).capacity ∧
      (∃ j, (New α n).capacity = 2 ^ j) ∧ n ≤ ((New α n).capacity : Int) ∧
      (∀ m : Nat, (∃ j, m = 2 ^ j) → 16 ≤ m → n ≤ (m : Int) →
        (New α n).capacity ≤ m) := by
    by_cases hlt : n < 16
    · have hcap : (New α n).capacity = 16 := by
        show (if n < 16 then 16 else 2 ^ clog2 n.toNat) = 16
        rw [if_pos hlt]
      rw [hcap]
      refine ⟨by norm_num, le_refl _, ⟨4, by norm_num⟩, by push_cast; omega,
        fun m hm h16 hn' => h16⟩
    · have h16n : (16 : Int) ≤ n := by omega
      have htn : 16 ≤ n.toNat := by omega
      have htn32 : n.toNat ≤ 2 ^ 32 := by omega
      have hclog : clog2 n.toNat = Nat.clog 2 n.toNat :=
        clog2_eq (le_trans htn32 (by norm_num))
      have hcap : (New α n).capacity = 2 ^ Nat.clog 2 n.toNat := by
        show (if n < 16 then 16 else 2 ^ clog2 n.toNat) = _
        rw [if_neg hlt, hclog]
      rw [hcap]
      have hle_pow : n.toNat ≤ 2 ^ Nat.clog 2 n.toNat :=
        Nat.le_pow_clog one_lt_two _
      have hclog_le : Nat.clog 2 n.toNat ≤ 32 :=
        (Nat.le_pow_iff_clog_le one_lt_two).1 htn32
      refine ⟨?_, ?_, ⟨_, rfl⟩, ?_, ?_⟩
      · exact Nat.pow_le_pow_right (by norm_num) hclog_le
      · have hmono : Nat.clog 2 16 ≤ Nat.clog 2 n.toNat :=
          Nat.clog_mono_right 2 htn
        have h164 : Nat.clog 2 16 = 4 := by
          rw [show (16 : Nat) = 2 ^ 4 by norm_num]
          exact Nat.clog_pow 2 4 one_lt_two
        calc (16 : Nat) = 2 ^ 4 := by norm_num
          _ ≤ 2 ^ Nat.clog 2 n.toNat :=
              Nat.pow_le_pow_right (by norm_num) (h164 ▸ hmono)
      · omega
      · intro m hm h16 hnm
        obtain ⟨j, hj⟩ := hm
        subst hj
        have hle : n.toNat ≤ 2 ^ j := by omega
        exact Nat.pow_le_pow_right (by norm_num)
          ((Nat.le_pow_iff_clog_le one_lt_two).1 hle)
  obtain ⟨h32le, h16le, hpow, hnle, hmin⟩ := hmain
  refine ⟨hpow, h16le, hnle, hmin, rfl, ?_, ?_, by decide, by decide⟩
  · show ((New α n).capacity - 1) % 2 ^ 32 = (New α n).capacity - 1
    exact Nat.mod_eq_of_lt (by omega)
  · show ((New α n).capacity - 1) % 2 ^ 64 = (New α n).capacity - 1
    refine Nat.mod_eq_of_lt ?_
    have : (2 : Nat) ^ 32 < 2 ^ 64 := by norm_num
    omega

theorem c8_witness : (New Nat 20).capacity = 32 :=
  (@c8_new_capacity Nat 20 (by norm_num)).2.2.2.2.2.2.2.2

/-! ### Traversal with deletion -/

theorem bucketAt_lt {hm : HM α} {i : Nat} (h : i < hm.slices.length) :
    bucketAt hm i = hm.slices[i] := by
  rw [bucketAt, List.getD_eq_getElem?_getD, List.getElem?_eq_getElem h]
  rfl

theorem bucketAt_ge {hm : HM α} {i : Nat} (h : hm.slices.length ≤ i) :
    bucketAt hm i = ⟨[], 0⟩ := by
  rw [bucketAt, List.getD_eq_getElem?_getD, List.getElem?_eq_none h]
  rfl

theorem entriesList_keys_nodup {hm : HM α} (hInv : Inv hm) :
    ((entriesList hm).map Prod.fst).Nodup := by
  rw [entriesList, List.map_flatten, List.map_map]
  rw [List.nodup_flatten]
  constructor
  · intro l hl
    rcases List.mem_map.1 hl with ⟨b, hb, hbl⟩
    rcases List.mem_iff_getElem.1 hb with ⟨j, hj, hjb⟩
    have hwb := (hInv.2.1 j).2.1
    rw [bucketAt_lt hj, hjb] at hwb
    rw [← hbl]
    exact hwb
  · rw [List.pairwise_map, List.pairwise_iff_getElem]
    intro i j hi hj hij
    intro a hai haj
    rcases List.mem_map.1 hai with ⟨p, hp, hpa⟩
    rcases List.mem_map.1 haj with ⟨q, hq, hqa⟩
    have hhi := (hInv.2.1 i).1 p (by rw [bucketAt_lt hi]; exact hp)
    have hhj := (hInv.2.1 j).1 q (by rw [bucketAt_lt hj]; exact hq)
    have : p.1 = q.1 := by rw [hpa, hqa]
    rw [this, hhj] at hhi
    omega

theorem iterChain_keepAll :
    ∀ (c : List (Key × α)) (hm : HM α) (acc : List (Key × α)),
      iterChain (fun acc k v => (acc ++ [(k, v)], true)) c hm acc
        = some (hm, acc ++ c)
  | [], hm, acc => by
    rw [iterChain, List.append_nil]
  | (k, v) :: rest, hm, acc => by
    rw [iterChain]
    dsimp only
    rw [iterChain_keepAll rest hm (acc ++ [(k, v)]), List.append_assoc]
    rfl

theorem iterSlices_keepAll :
    ∀ (idxs : List Nat) (hm : HM α) (acc : List (Key × α)),
      iterSlices (fun acc k v => (acc ++ [(k, v)], true)) idxs hm acc
        = some (hm, acc ++ (idxs.map fun i => (bucketAt hm i).chain).flatten)
  | [], hm, acc => by
    rw [iterSlices, List.map_nil, List.flatten_nil, List.append_nil]
  | i :: rest, hm, acc => by
    rw [iterSlices, iterChain_keepAll]
    dsimp only
    rw [iterSlices_keepAll rest hm (acc ++ (bucketAt hm i).chain)]
    rw [List.map_cons, List.flatten_cons, List.append_assoc]

theorem iterChain_dropAll :
    ∀ {c : List (Key × α)} {hm : HM α} {i : Nat} {s : Unit}, Inv hm →
      i < hm.slices.length → (bucketAt hm i).chain = c →
      (∀ p ∈ c, hashIndex hm p.1 = i) →
      iterChain (fun u _ _ => (u, false)) c hm s
        = some ({ hm with
                  slices := hm.slices.set i ⟨[], 0⟩
                  count := hm.count - c.length }, s)
  | [], hm, i, s, hInv, hlt, hch, _ => by
    have hlast : (bucketAt hm i).last = 0 := (hInv.2.1 i).2.2.2.1 hch
    have hbi : bucketAt hm i = ⟨[], 0⟩ := by
      cases hbb : bucketAt hm i with
      | mk ch la =>
        rw [hbb] at hch hlast
        dsimp only at hch hlast
        rw [hch, hlast]
    have hset : hm.slices.set i (⟨[], 0⟩ : Bucket α) = hm.slices := by
      rw [← hbi]
      exact set_getD_self hlt
    rw [iterChain, hset]
    rfl
  | (k, v) :: rest, hm, i, s, hInv, hlt, hch, hhome => by
    have hik : hashIndex hm k = i := hhome (k, v) (by simp)
    have hscan1 : scanFor k (bucketAt hm i).chain = ScanOut.found [] v rest := by
      rw [hch, scanFor, equalFn_self]
    have hrm : removePairsOp hm k = some
        { hm with
          slices := hm.slices.set i (removedBucket [] rest (bucketAt hm i).last)
          count := hm.count - 1 } := by
      rw [removePairsOp, hik, hscan1]
    have hInv1 := (remove_spec hInv hrm).1
    have hchain1 : (removedBucket ([] : List (Key × α)) rest
        (bucketAt hm i).last).chain = rest := by
      cases rest <;> rfl
    have hstep := iterChain_dropAll (c := rest) (s := s) hInv1
      (by rw [List.length_set]; exact hlt)
      (by rw [show bucketAt { hm with
            slices := hm.slices.set i (removedBucket [] rest (bucketAt hm i).last)
            count := hm.count - 1 } i
          = removedBucket [] rest (bucketAt hm i).last from getD_set_self hlt]
          exact hchain1)
      (by
        intro p hp
        rw [hashIndex_update]
        exact hhome p (List.mem_cons_of_mem _ hp))
    rw [iterChain]
    dsimp only
    rw [hrm]
    dsimp only
    rw [hstep]
    rw [show ((hm.slices.set i (removedBucket [] rest (bucketAt hm i).last)).set i
        (⟨[], 0⟩ : Bucket α)) = hm.slices.set i ⟨[], 0⟩ from List.set_set _ _ _ _]
    rw [show hm.count - 1 - rest.length = hm.count - ((k, v) :: rest).length from by
      rw [List.length_cons]; omega]

theorem iterSlices_dropAll :
    ∀ {idxs : List Nat} {hm : HM α} {s : Unit}, Inv hm →
      (∀ i ∈ idxs, i < hm.slices.length) →
      ∃ hm', iterSlices (fun u _ _ => (u, false)) idxs hm s = some (hm', s) ∧
        Inv hm' ∧ hm'.slices.length = hm.slices.length ∧
        ∀ j, j < hm.slices.length →
          bucketAt hm' j = if j ∈ idxs then ⟨[], 0⟩ else bucketAt hm j
  | [], hm, s, hInv, _ => by
    refine ⟨hm, by rw [iterSlices], hInv, rfl, ?_⟩
    intro j hj
    simp
  | i :: rest, hm, s, hInv, hbound => by
    have hlt : i < hm.slices.length := hbound i (by simp)
    have hstep := iterChain_dropAll (c := (bucketAt hm i).chain) (s := s) hInv hlt
      rfl ((hInv.2.1 i).1)
    have hInv1 : Inv { hm with
        slices := hm.slices.set i ⟨[], 0⟩
        count := hm.count - (bucketAt hm i).chain.length } :=
      iterChain_inv hInv hstep
    obtain ⟨hm', hrun, hInv', hlen', hdesc⟩ := iterSlices_dropAll hInv1
      (by
        intro j hj
        rw [List.length_set]
        exact hbound j (List.mem_cons_of_mem _ hj))
    refine ⟨hm', ?_, hInv', by rw [hlen', List.length_set], ?_⟩
    · rw [iterSlices, hstep]
      dsimp only
      exact hrun
    · intro j hj
      have hj1 : j < hm.slices.length := hj
      have hd := hdesc j (by rw [List.length_set]; exact hj1)
      by_cases hjr : j ∈ rest
      · rw [hd, if_pos hjr, if_pos (by simp [hjr])]
      · rw [hd, if_neg hjr]
        by_cases hji : j = i
        · rw [if_pos (by simp [hji])]
          rw [hji]
          exact getD_set_self hlt
        · rw [if_neg (by simp [hji, hjr])]
          exact getD_set_ne fun h => hji h.symm

/-- C6: an `IterateAndUpdate` whose callback always accepts invokes the
callback exactly once per live entry — the recording callback returns the
table's entry list, whose keys are pairwise distinct — and leaves the table
(hence `GetCount` and the mapping) unchanged; an `IterateAndUpdate` whose
callback always rejects removes every entry, leaving `GetCount` 0 and every
subsequent `Get` reporting absent. -/
theorem c6_iterate_and_update {hm : HM α} (hInv : Inv hm) :
    (IterateAndUpdate (fun acc k v => (acc ++ [(k, v)], true)) hm []
        = some (hm, entriesList hm) ∧
      ((entriesList hm).map Prod.fst).Nodup) ∧
    ∃ hm', IterateAndUpdate (fun u _ _ => (u, false)) hm () = some (hm', ()) ∧
      GetCount hm' = 0 ∧ ∀ k, Get hm' k = some none := by
  constructor
  · constructor
    · rw [IterateAndUpdate, iterSlices_keepAll, List.nil_append]
      rw [show ((List.range hm.slices.length).map
            fun i => (bucketAt hm i).chain)
          = hm.slices.map Bucket.chain from
        map_range_getD Bucket.chain ⟨[], 0⟩ hm.slices]
      rfl
    · exact entriesList_keys_nodup hInv
  · obtain ⟨hm', hrun, hInv', hlen', hdesc⟩ :=
      @iterSlices_dropAll α (List.range hm.slices.length) hm () hInv
        (fun i hi => List.mem_range.1 hi)
    have hempty : ∀ j, (bucketAt hm' j).chain = [] := by
      intro j
      by_cases hj : j < hm.slices.length
      · rw [hdesc j hj, if_pos (List.mem_range.2 hj)]
      · rw [bucketAt_ge (by omega)]
    refine ⟨hm', hrun, ?_, ?_⟩
    · show hm'.count = 0
      rw [hInv'.2.2]
      refine List.sum_eq_zero ?_
      intro x hx
      rcases List.mem_map.1 hx with ⟨b, hb, hbx⟩
      rcases List.mem_iff_getElem.1 hb with ⟨j, hj, hjb⟩
      have := hempty j
      rw [bucketAt_lt hj, hjb] at this
      rw [← hbx, this]
      rfl
    · intro k
      rw [Get, hempty (hashIndex hm' k)]
      rfl

theorem c6_witness :
    IterateAndUpdate (fun acc k v => (acc ++ [(k, v)], true)) c3hmW []
      = some (c3hmW, entriesList c3hmW) := by
  have hput : Put (New Nat 16) (Key.u64 7) 42 = some c3hmW := by decide
  exact ((c6_iterate_and_update ((Put_spec (Inv_New 16) hput).1)).1).1

/-! ### Growth -/

theorem expandChain_spec :
    ∀ {c : List (Key × α)} {nh nh' : HM α}, Inv nh →
      expandChain nh c = some nh' →
      (∀ p ∈ c, mapLookup nh p.1 = none) →
      (c.map Prod.fst).Nodup →
      Inv nh' ∧ nh'.count = nh.count + c.length ∧
      (∀ k v, lookupKV c k = some v → mapLookup nh' k = some v) ∧
      (∀ k, lookupKV c k = none → mapLookup nh' k = mapLookup nh k)
  | [], nh, nh', hInv, h, _, _ => by
    rw [expandChain] at h
    simp only [Option.some.injEq] at h
    subst h
    refine ⟨hInv, by simp, ?_, fun k _ => rfl⟩
    intro k v hv
    rw [lookupKV] at hv
    cases hv
  | (k0, v0) :: rest, nh, nh', hInv, h, hfresh, hnodup => by
    rw [expandChain] at h
    cases hput : Put nh k0 v0 with
    | none => rw [hput] at h; simp at h
    | some nh1 =>
      rw [hput] at h
      dsimp only at h
      obtain ⟨hInv1, hlk1, hlkne1, hcnt1⟩ := Put_spec hInv hput
      have hfresh0 : mapLookup nh k0 = none := hfresh (k0, v0) (by simp)
      rw [List.map_cons, List.nodup_cons] at hnodup
      have hk0notin : ∀ p ∈ rest, p.1 ≠ k0 := by
        intro p hp he
        have hmem : p.1 ∈ rest.map Prod.fst := List.mem_map_of_mem Prod.fst hp
        rw [he] at hmem
        exact hnodup.1 hmem
      have hrest_fresh : ∀ p ∈ rest, mapLookup nh1 p.1 = none := by
        intro p hp
        rw [hlkne1 p.1 (hk0notin p hp)]
        exact hfresh p (List.mem_cons_of_mem _ hp)
      obtain ⟨hInv', hcnt', hsome', hnone'⟩ :=
        expandChain_spec hInv1 h hrest_fresh hnodup.2
      refine ⟨hInv', ?_, ?_, ?_⟩
      · rw [hcnt', hcnt1, hfresh0]
        simp only [Option.isSome_none, Bool.false_eq_true, if_false,
          List.length_cons]
        omega
      · intro k v hv
        rw [lookupKV] at hv
        by_cases hk : k0 = k
        · rw [if_pos hk] at hv
          cases hv
          subst hk
          rw [hnone' k0 (lookupKV_eq_none_iff.2 fun p hp => hk0notin p hp)]
          exact hlk1
        · rw [if_neg hk] at hv
          exact hsome' k v hv
      · intro k hnone
        rw [lookupKV] at hnone
        by_cases hk : k0 = k
        · rw [if_pos hk] at hnone
          cases hnone
        · rw [if_neg hk] at hnone
          rw [hnone' k hnone]
          exact hlkne1 k fun he => hk he.symm

theorem expandLoop_spec :
    ∀ {idxs : List Nat} {newhm src nh src' : HM α},
      Inv src → Inv newhm → idxs.Nodup →
      (∀ i ∈ idxs, i < src.slices.length) →
      (∀ k, hashIndex src k ∈ idxs → mapLookup newhm k = none) →
      (∀ k, hashIndex src k ∉ idxs → mapLookup newhm k = mapLookup src k) →
      newhm.count + (idxs.map fun i => (bucketAt src i).chain.length).sum
        = src.count →
      expandLoop newhm src idxs = .ok (nh, src') →
      src' = src ∧ Inv nh ∧ nh.count = src.count ∧
      ∀ k, mapLookup nh k = mapLookup src k
  | [], newhm, src, nh, src', hInvS, hInvN, _, _, _, hpres, hcount, h => by
    rw [expandLoop] at h
    simp only [Except.ok.injEq, Prod.mk.injEq] at h
    obtain ⟨h1, h2⟩ := h
    subst h1
    subst h2
    refine ⟨rfl, hInvN, ?_, ?_⟩
    · simpa using hcount
    · intro k
      exact hpres k (by simp)
  | i :: rest, newhm, src, nh, src', hInvS, hInvN, hnodup, hbound, hfresh,
      hpres, hcount, h => by
    have hlt : i < src.slices.length := hbound i (by simp)
    rw [List.nodup_cons] at hnodup
    have hhome := (hInvS.2.1 i).1
    rw [expandLoop] at h
    rw [List.map_cons, List.sum_cons] at hcount
    cases hch : (bucketAt src i).chain with
    | nil =>
      rw [hch] at h
      refine expandLoop_spec hInvS hInvN hnodup.2
        (fun j hj => hbound j (List.mem_cons_of_mem _ hj)) ?_ ?_ ?_ h
      · intro k hk
        exact hfresh k (List.mem_cons_of_mem _ hk)
      · intro k hk
        by_cases hki : hashIndex src k = i
        · rw [hfresh k (by rw [hki]; simp)]
          rw [mapLookup, hki, hch]
          rfl
        · exact hpres k (by simp [hki, hk])
      · rw [hch] at hcount
        simpa using hcount
    | cons q tl =>
      rw [hch] at h
      dsimp only at h
      cases hec : expandChain newhm (q :: tl) with
      | none => rw [hec] at h; simp at h
      | some nh1 =>
        rw [hec] at h
        have hchmem : ∀ p ∈ q :: tl, p ∈ (bucketAt src i).chain := by
          intro p hp
          rw [hch]
          exact hp
        have hchfresh : ∀ p ∈ q :: tl, mapLookup newhm p.1 = none := by
          intro p hp
          refine hfresh p.1 ?_
          rw [hhome p (hchmem p hp)]
          simp
        have hchnodup : ((q :: tl).map Prod.fst).Nodup := by
          have := (hInvS.2.1 i).2.1
          rw [hch] at this
          exact this
        obtain ⟨hInvN1, hcnt1, hsome1, hnone1⟩ :=
          expandChain_spec hInvN hec hchfresh hchnodup
        have hnotin : ∀ k, hashIndex src k ≠ i → lookupKV (q :: tl) k = none := by
          intro k hki
          refine lookupKV_eq_none_iff.2 ?_
          intro p hp hpk
          exact hki (by rw [← hpk]; exact hhome p (hchmem p hp))
        have hbeq : (⟨q :: tl, (q :: tl).length - 1⟩ : Bucket α)
            = bucketAt src i := by
          have hanch := (hInvS.2.1 i).2.2.2.2 (by rw [hch]; simp)
          rw [hch] at hanch
          cases hbb : bucketAt src i with
          | mk ch la =>
            rw [hbb] at hch
            dsimp only at hch
            rw [hbb] at hanch
            dsimp only at hanch
            rw [Bucket.mk.injEq]
            refine ⟨hch.symm ▸ rfl, ?_⟩
            rw [← hch] at hanch ⊢
            omega
        have hsrcstep : { src with
            slices := src.slices.set i ⟨q :: tl, (q :: tl).length - 1⟩ }
            = src := by
          rw [hbeq, show bucketAt src i = src.slices.getD i ⟨[], 0⟩ from rfl,
            set_getD_self hlt]
        rw [hsrcstep] at h
        refine expandLoop_spec hInvS hInvN1 hnodup.2
          (fun j hj => hbound j (List.mem_cons_of_mem _ hj)) ?_ ?_ ?_ h
        · intro k hk
          have hki : hashIndex src k ≠ i := fun he => hnodup.1 (he ▸ hk)
          rw [hnone1 k (hnotin k hki)]
          exact hfresh k (List.mem_cons_of_mem _ hk)
        · intro k hk
          by_cases hki : hashIndex src k = i
          · cases hlkc : lookupKV (q :: tl) k with
            | some w =>
              rw [hsome1 k w hlkc]
              rw [mapLookup, hki, hch, hlkc]
            | none =>
              rw [hnone1 k hlkc]
              rw [hfresh k (by rw [hki]; simp)]
              rw [mapLookup, hki, hch, hlkc]
          · rw [hnone1 k (hnotin k hki)]
            exact hpres k (by simp [hki, hk])
        · rw [hcnt1]
          have : (q :: tl).length = (bucketAt src i).chain.length := by
            rw [hch]
          omega

/-- C4 counterexample: a reachable capacity-64 table with two entries of
different key domains in different buckets (count 2); `Expand 3` — a
requested capacity exceeding the count — builds a capacity-16 table in
which the two keys collide, so the second re-insertion panics on the
cross-domain type assertion: `Expand` errors instead of returning a new
table.  The source accompanying the error is unchanged. -/
theorem c4_counterexample :
    ((Put (New Nat 64) (Key.bytes [1]) 0).bind fun h =>
        Put h (Key.str "a") 1) = some c4src ∧
    c4src.count = 2 ∧ ((c4src.count : Int) < 3) ∧
    Expand c4src 3 = .error (.badKeyAssert, c4src) := by
  decide

/-- C4 amended: on any invariant table, whenever `Expand n` (with `n`
exceeding the live count) completes without a cross-domain re-insertion
panic — guaranteed e.g. when all keys share one domain, or the rounded new
capacity is at least the source's — it returns a new table with exactly the
source's key-to-value mapping and the same `GetCount`, every stored pair
being retrievable with `Get`; the source table is returned unchanged
(mapping, count and capacity intact) and remains independently queryable. -/
theorem c4_expand_preserves {hm nh src' : HM α} {n : Int} (hInv : Inv hm)
    (h : Expand hm n = .ok (nh, src')) :
    src' = hm ∧ GetCount nh = GetCount hm ∧
    (∀ k, mapLookup nh k = mapLookup hm k) ∧
    (∀ k v, mapLookup hm k = some v → Get nh k = some (some v)) ∧
    (∀ k, Get src' k = Get hm k) := by
  rw [Expand] at h
  by_cases hle : n ≤ (hm.count : Int)
  · rw [if_pos hle] at h
    cases h
  · rw [if_neg hle] at h
    cases hloop : expandLoop (New α n) hm (List.range hm.slices.length) with
    | error e => rw [hloop] at h; cases h
    | ok p =>
      rw [hloop] at h
      simp only [Except.ok.injEq] at h
      rw [h] at hloop
      have hsum : ((List.range hm.slices.length).map
          fun i => (bucketAt hm i).chain.length).sum = hm.count := by
        have hr := map_range_getD (fun b : Bucket α => b.chain.length)
          ⟨[], 0⟩ hm.slices
        rw [show ((List.range hm.slices.length).map
              fun i => (bucketAt hm i).chain.length)
            = (List.range hm.slices.length).map
              fun i => (fun b : Bucket α => b.chain.length)
                (hm.slices.getD i ⟨[], 0⟩) from rfl]
        rw [hr, hInv.2.2]
      obtain ⟨hsrc, hInvN, hcnt, hmap⟩ :=
        expandLoop_spec hInv (Inv_New n) (List.nodup_range _)
          (fun i hi => List.mem_range.1 hi)
          (fun k _ => mapLookup_New n k)
          (fun k hk => absurd (List.mem_range.2 (hashIndex_lt hInv.1 k)) hk)
          (by
            rw [hsum]
            show 0 + hm.count = hm.count
            omega)
          hloop
      refine ⟨hsrc, hcnt, hmap, ?_, fun k => by rw [hsrc]⟩
      intro k v hv
      refine Get_spec_some hInvN ?_
      rw [hmap k]
      exact hv

theorem c4_witness : GetCount c4nhW = GetCount c3hmW := by
  have hok : Expand c3hmW 17 = .ok (c4nhW, c4srcW) := by decide
  have hput : Put (New Nat 16) (Key.u64 7) 42 = some c3hmW := by decide
  exact (c4_expand_preserves (Put_spec (Inv_New 16) hput).1 hok).2.1

end Hashmap
